import Mathlib

/-!
Shallow embedding of the `compress_wi_primes` core (bit buffer, variable-length
integer codecs, factor encoder/decoder, prime table engine) and proofs of the
specification's testable properties against it.

Modelling conventions:
* `u32`/`u8`/`usize` values are `Nat` with an explicit `% 4294967296` (resp.
  `% 256`) exactly where the Rust arithmetic can wrap; operations that cannot
  overflow on the source's `u64` temporaries are plain `Nat` arithmetic.
* A Rust `panic!`/failed `assert!`/out-of-range index/`unwrap()` on `Err` is
  modelled by an `Option` result of `none`.
* The `DynBitString` byte-packed backing array is represented by the sequence
  of its `cnt` logical bits (`List Bool`); every public operation of the Rust
  type (`get`/`set`/`append`/`clip`/`len`/equality) is a function of exactly
  those bits, so the representation is observationally exact.
-/

set_option maxHeartbeats 1600000
set_option maxRecDepth 8000

/-- The number of binary digits of `v` (`u32::BITS - leading_zeros(v)` in the
source), computed by fueled halving; `fuel = 32` is exact for every `u32`. -/
def bit_length_fuel : Nat → Nat → Nat
  | 0, _ => 0
  | f + 1, v => if v = 0 then 0 else bit_length_fuel f (v / 2) + 1

/-- Fueled digit-by-digit integer square root: exact (the floor of `√n`) for
`n < 4^fuel`. -/
def isqrt_fuel : Nat → Nat → Nat
  | 0, _ => 0
  | f + 1, n =>
    if n = 0 then 0
    else
      let r := isqrt_fuel f (n / 4)
      if (2 * r + 1) * (2 * r + 1) ≤ n then 2 * r + 1 else 2 * r

/-- `(n as f64).sqrt() as u32` for a `u32` value `n`: every `u32` is exactly
representable in `f64`, the correctly-rounded `f64` square root of a
non-square `n < 2^32` is more than an ulp away from the nearest integer, and
`as u32` truncates, so the result is the floor of `√n`; `fuel = 17` makes
`isqrt_fuel` exact up to `4^17 = 2^34 > 2^32`. -/
def f64_sqrt_u32 (n : Nat) : Nat := isqrt_fuel 17 n

/-- Decidable equality of `Except` results, for evaluating the model on
concrete inputs. -/
instance {ε α : Type} [DecidableEq ε] [DecidableEq α] : DecidableEq (Except ε α) := fun x y =>
  match x, y with
  | .ok a, .ok b =>
    if h : a = b then isTrue (by rw [h]) else isFalse (fun hh => by cases hh; exact h rfl)
  | .error a, .error b =>
    if h : a = b then isTrue (by rw [h]) else isFalse (fun hh => by cases hh; exact h rfl)
  | .ok _, .error _ => isFalse (fun hh => by cases hh)
  | .error _, .ok _ => isFalse (fun hh => by cases hh)

/-- The `u32` modulus `2^32`. -/
def U32MOD : Nat := 4294967296

/-- Wrapping `u32` addition (release-mode Rust semantics for `+` on `u32`). -/
def u32_add (a b : Nat) : Nat := (a + b) % U32MOD

/-- Wrapping `u32` subtraction (release-mode Rust semantics for `-` on `u32`).
For `b ≤ a < 2^32` this is exact subtraction `a - b`. -/
def u32_sub (a b : Nat) : Nat := (a % U32MOD + (U32MOD - b % U32MOD)) % U32MOD

/-- `DynBitString` (src/dyn_bit_string.rs): a growable bit buffer with logical
length `cnt`, modelled as the list of its `cnt` bits in index order. -/
abbrev DynBitString := List Bool

/-- `DynBitString::get` (src/dyn_bit_string.rs lines 25-30): `assert!(ndx < cnt)`
then extract bit `ndx`.  A failed assert (out-of-range index) is `none`; the
byte-array access after the assert is always in bounds. -/
def DynBitString.get (bs : DynBitString) (ndx : Nat) : Option Bool := bs[ndx]?

/-- `DynBitString::append` (src/dyn_bit_string.rs): extends the buffer by one
bit.  The Rust code grows the backing byte array on demand and overwrites the
target bit explicitly, so at the bit level it is exactly list append. -/
def DynBitString.append (bs : DynBitString) (bit : Bool) : DynBitString := bs ++ [bit]

/-- `DynBitString::clip` (src/dyn_bit_string.rs lines 50-65): shrink truncates
to the first `newsz` bits (the Rust additionally zeroes the discarded bits
inside the last backing byte, which is invisible at the bit level); grow
appends `false` bits via `append`; `newsz == cnt` does nothing. -/
def DynBitString.clip (bs : DynBitString) (newsz : Nat) : DynBitString :=
  if newsz < bs.length then bs.take newsz
  else if newsz > bs.length then bs ++ List.replicate (newsz - bs.length) false
  else bs

namespace SmallIntEncoding

/-- The bit string `SmallIntEncoding::append_uint32` (src/encoding_small_int.rs
lines 29-57) emits for one value `v < 32`: chunk of the low bit, then either a
stop flag (`false`) or a continue flag (`true`) and a 2-bit chunk, repeated
once more.  Bits are least-significant first; `v & 1` is `v % 2`, `v >>= 1`
is `v / 2`.  The trailing `assert_eq!(v, 0)` always holds for `v < 32`. -/
def bits (v : Nat) : List Bool :=
  let b0 := v % 2 == 1
  let v1 := v / 2
  if v1 = 0 then [b0, false]
  else
    let b1 := v1 % 2 == 1
    let b2 := v1 / 2 % 2 == 1
    let v3 := v1 / 4
    if v3 = 0 then [b0, true, b1, b2, false]
    else [b0, true, b1, b2, true, v3 % 2 == 1, v3 / 2 % 2 == 1]

/-- `SmallIntEncoding::append_uint32`: `assert!(v_in < (1 << 5))` (a failed
assert is `none`), then append the chunked encoding of `v` to the buffer. -/
def append_uint32 (bs : List Bool) (v : Nat) : Option (List Bool) :=
  if v < 32 then some (bs ++ bits v) else none

/-- `SmallIntEncoding::read_uint32` (src/encoding_small_int.rs lines 62-94):
read one chunked small value starting at `cursor`, returning the value and the
advanced cursor; `none` when a bit read runs past the end of the buffer
(the `DynBitString::get` assert). -/
def read_uint32 (bs : List Bool) (cursor : Nat) : Option (Nat × Nat) :=
  match bs[cursor]?, bs[cursor + 1]? with
  | some b0, some c1 =>
    let v0 : Nat := if b0 then 1 else 0
    if c1 then
      match bs[cursor + 2]?, bs[cursor + 3]?, bs[cursor + 4]? with
      | some b1, some b2, some c2 =>
        let v1 := v0 + (if b1 then 2 else 0) + (if b2 then 4 else 0)
        if c2 then
          match bs[cursor + 5]?, bs[cursor + 6]? with
          | some b3, some b4 =>
            some (v1 + (if b3 then 8 else 0) + (if b4 then 16 else 0), cursor + 7)
          | _, _ => none
        else some (v1, cursor + 5)
      | _, _, _ => none
    else some (v0, cursor + 2)
  | _, _ => none

end SmallIntEncoding

namespace U32Encoding

/-- The value bits the general codec emits, fueled: `v` least-significant bit
first, one bit per iteration of `while v > 0` (`v & 1` is `v % 2`, `v >>= 1`
is `v / 2`); 32 units of fuel are exact for every `u32`. -/
def val_bits_fuel : Nat → Nat → List Bool
  | 0, _ => []
  | f + 1, v => if v = 0 then [] else (v % 2 == 1) :: val_bits_fuel f (v / 2)

/-- The value bits the general codec emits for `v > 0`. -/
def val_bits (v : Nat) : List Bool := val_bits_fuel 32 v

/-- `len_bitct` of `U32Encoding::append_uint32` (and of the free-function
revision): `32 - leading_zeros(v_in)`, minus 1 when nonzero so that it fits in
5 bits; `0` for `v_in = 0`. -/
def len_bitct (v : Nat) : Nat := if v = 0 then 0 else bit_length_fuel 32 v - 1

/-- The length-field bits of `U32Encoding::append_uint32` (src/encoding_u32.rs
lines 28-70, `CONTINUE_OFFSETS = [1, 5]`) for `len_bitct = L ≤ 31`: two low
bits of `L`, then at offset 1 either a stop flag (`false`, when `L >> 2 == 0`)
or a continue flag (`true`) followed by the remaining three bits of `L`
(offset 5 is never reached by the 5-iteration loop, so no second flag). -/
def len_bits (L : Nat) : List Bool :=
  if L / 4 = 0 then [L % 2 == 1, L / 2 % 2 == 1, false]
  else [L % 2 == 1, L / 2 % 2 == 1, true, L / 4 % 2 == 1, L / 8 % 2 == 1, L / 16 % 2 == 1]

/-- The whole bit string `U32Encoding::append_uint32` emits for `v < 2^32`:
the length field for `len_bitct v`, then the raw value bits (a single `false`
for `v = 0`). -/
def bits (v : Nat) : List Bool :=
  len_bits (len_bitct v) ++ (if v = 0 then [false] else val_bits v)

/-- `U32Encoding::append_uint32`: append the two-part code of `v` to the
buffer.  Its internal `assert_eq!(len_bitct, 0)` always holds since the length
field is at most 5 bits. -/
def append_uint32 (bs : List Bool) (v : Nat) : List Bool := bs ++ bits v

/-- The value-reconstruction loop of `U32Encoding::read_uint32`: read `count`
bits starting at `cursor`, least-significant first (`v |= bitct_mask`),
returning the value and the advanced cursor; `none` on buffer exhaustion. -/
def read_bits_lsb : List Bool → Nat → Nat → Option (Nat × Nat)
  | _, cursor, 0 => some (0, cursor)
  | bs, cursor, count + 1 =>
    match bs[cursor]? with
    | none => none
    | some b =>
      match read_bits_lsb bs (cursor + 1) count with
      | none => none
      | some (v, c) => some ((if b then 1 else 0) + 2 * v, c)

/-- `U32Encoding::read_uint32` (src/encoding_u32.rs lines 78-116): read the
length field (two bits, a flag at offset 1, and three more bits when the flag
signals continuation), add 1 to get `vlen` (the `assert!(vlen < 33)` always
holds since the field is at most 5 bits), then read `vlen` raw value bits. -/
def read_uint32 (bs : List Bool) (cursor : Nat) : Option (Nat × Nat) :=
  match bs[cursor]?, bs[cursor + 1]?, bs[cursor + 2]? with
  | some b0, some b1, some f =>
    let v01 : Nat := (if b0 then 1 else 0) + (if b1 then 2 else 0)
    if f then
      match bs[cursor + 3]?, bs[cursor + 4]?, bs[cursor + 5]? with
      | some b2, some b3, some b4 =>
        let vlen := v01 + (if b2 then 4 else 0) + (if b3 then 8 else 0) + (if b4 then 16 else 0)
        read_bits_lsb bs (cursor + 6) (vlen + 1)
      | _, _, _ => none
    else read_bits_lsb bs (cursor + 3) (v01 + 1)
  | _, _, _ => none

end U32Encoding

namespace encoding_uint

/-- The length-field bits of the free function `append_uint32`
(src/encoding_uint.rs lines 61-99, `CONTINUE_OFFSETS = [1, 3, 5]`): flags are
emitted at offsets 1 and 3 of the length field; offset 5 is never reached. -/
def len_bits (L : Nat) : List Bool :=
  if L / 4 = 0 then [L % 2 == 1, L / 2 % 2 == 1, false]
  else if L / 16 = 0 then
    [L % 2 == 1, L / 2 % 2 == 1, true, L / 4 % 2 == 1, L / 8 % 2 == 1, false]
  else
    [L % 2 == 1, L / 2 % 2 == 1, true, L / 4 % 2 == 1, L / 8 % 2 == 1, true, L / 16 % 2 == 1]

/-- The free-function revision `append_uint32(v_in, length_and_val)` of the
general codec: same two-part structure as `U32Encoding::append_uint32` but
with continuation checkpoints `[1, 3, 5]` instead of `[1, 5]`. -/
def append_uint32 (v : Nat) (bs : List Bool) : List Bool :=
  bs ++ len_bits (U32Encoding.len_bitct v) ++
    (if v = 0 then [false] else U32Encoding.val_bits v)

end encoding_uint

namespace encode_prime

/-- `PrmPwr` (src/encode_prime.rs): a prime-power pair.  `exp` is a `u8` in the
source and is tracked modulo 256; `prm_idx` is a `u32` prime-table index. -/
structure PrmPwr where
  exp : Nat
  prm_idx : Nat
  deriving DecidableEq, Repr

/-- The loop of `factors_to_int_as_prms` (src/encode_prime.rs lines 30-46):
walk the factor list with the current (last-pushed) prime power `cur` and the
already-closed runs `acc`; an equal index bumps `cur`'s exponent (`u8`
arithmetic, hence `% 256`), a different index closes `cur` and starts a fresh
run with exponent 1. -/
def runs_loop : List Nat → List PrmPwr → PrmPwr → List PrmPwr
  | [], acc, cur => acc ++ [cur]
  | p :: rest, acc, cur =>
    if cur.prm_idx = p then runs_loop rest acc ⟨(cur.exp + 1) % 256, cur.prm_idx⟩
    else runs_loop rest (acc ++ [cur]) ⟨1, p⟩

/-- `factors_to_int_as_prms`: seeds the run list with `⟨0, v[0]⟩` and then
walks the whole input (so the first element is counted by its own run).
Indexing `prm_factors[0]` on an empty input is an out-of-bounds panic. -/
def factors_to_int_as_prms : List Nat → Option (List PrmPwr)
  | [] => none
  | p :: rest => some (runs_loop (p :: rest) [] ⟨0, p⟩)

/-- The exponent-emitting loop of `encode_factors`: for each run,
`assert!(exp > 0)` and append the small-value encoding of `exp - 1`. -/
def append_exps : List Bool → List PrmPwr → Option (List Bool)
  | bs, [] => some bs
  | bs, ppwr :: rest =>
    if ppwr.exp = 0 then none
    else
      match SmallIntEncoding.append_uint32 bs (ppwr.exp - 1) with
      | none => none
      | some bs2 => append_exps bs2 rest

/-- The delta-emitting loop of `encode_factors`: for each run, append the
general encoding of `prm_idx - prev_index` (`u32` subtraction, wrapping) and
update `prev_index` to the run's index. -/
def append_idxs : List Bool → Nat → List PrmPwr → List Bool
  | bs, _, [] => bs
  | bs, prev, ppwr :: rest =>
    append_idxs (U32Encoding.append_uint32 bs (u32_sub ppwr.prm_idx prev)) ppwr.prm_idx rest

/-- `encode_factors` (src/encode_prime.rs lines 54-100): `assert!(!v.is_empty())`,
run-length the input, emit `run_count - 1` and each `exp - 1` with the
small-value codec, then each index delta with the general codec.  Any failed
assert along the way is `none`. -/
def encode_factors (v : List Nat) : Option (List Bool) :=
  if v.isEmpty then none
  else
    match factors_to_int_as_prms v with
    | none => none
    | some iap =>
      if iap.length = 0 then none
      else
        match SmallIntEncoding.append_uint32 [] (iap.length - 1) with
        | none => none
        | some bs1 =>
          match append_exps bs1 iap with
          | none => none
          | some bs2 => some (append_idxs bs2 0 iap)

/-- The exponent-reading loop of `decode_factors`: read `count` small values,
adding 1 to each. -/
def read_exps (bs : List Bool) : Nat → Nat → Option (List Nat × Nat)
  | cursor, 0 => some ([], cursor)
  | cursor, count + 1 =>
    match SmallIntEncoding.read_uint32 bs cursor with
    | none => none
    | some (e, c) =>
      match read_exps bs c count with
      | none => none
      | some (rest, c2) => some ((e + 1) :: rest, c2)

/-- The index-reading loop of `decode_factors`: read `count` general-codec
deltas, reconstructing absolute indices by a running sum (`u32` addition)
against `prev`. -/
def read_idxs (bs : List Bool) : Nat → Nat → Nat → Option (List Nat × Nat)
  | cursor, _, 0 => some ([], cursor)
  | cursor, prev, count + 1 =>
    match U32Encoding.read_uint32 bs cursor with
    | none => none
    | some (d, c) =>
      match read_idxs bs c (u32_add d prev) count with
      | none => none
      | some (rest, c2) => some (u32_add d prev :: rest, c2)

/-- The expansion loop of `decode_factors`: each run contributes its index
repeated `exp` times, where the stored exponent is cast `as u8` (`% 256`). -/
def expand : List Nat → List Nat → List Nat
  | e :: es, i :: is => List.replicate (e % 256) i ++ expand es is
  | _, _ => []

/-- `decode_factors` (src/encode_prime.rs lines 105-133): read `run_count - 1`,
then that many exponents, then that many index deltas (one shared cursor over
one bit string), and expand the run-length list back into a factor-index
sequence.  `none` models the panic when a read runs past the end of the
buffer. -/
def decode_factors (bs : List Bool) : Option (List Nat) :=
  match SmallIntEncoding.read_uint32 bs 0 with
  | none => none
  | some (l0, c1) =>
    match read_exps bs c1 (l0 + 1) with
    | none => none
    | some (exps, c2) =>
      match read_idxs bs c2 0 (l0 + 1) with
      | none => none
      | some (idxs, _) => some (expand exps idxs)

end encode_prime

namespace primes

/-- `GenPrimesErrcode` (src/primes.rs). -/
inductive GenPrimesErrcode
  | PrimesNotEnoughForRange
  deriving DecidableEq, Repr

/-- `FactorPrimesErrcode` (src/primes.rs). -/
inductive FactorPrimesErrcode
  | NotEnoughPrimesToFactorIt
  | NIsBigPrime
  | AlgorithmFailed
  deriving DecidableEq, Repr

/-- `PrimeIndexError` (src/primes.rs). -/
inductive PrimeIndexError
  | NotInList
  deriving DecidableEq, Repr

/-- `index_in_prime_list` (src/primes.rs lines 57-63): `assert!(!prms.is_empty())`
(`none` on violation), then `binary_search` for `k`.  `binary_search` on the
strictly increasing tables this program uses returns the unique position of a
present element, modelled as the index of the first occurrence. -/
def index_in_prime_list (k : Nat) (prms : List Nat) : Option (Except PrimeIndexError Nat) :=
  if prms.isEmpty then none
  else if k ∈ prms then some (.ok (prms.indexOf k)) else some (.error .NotInList)

/-- `is_prime` (src/primes.rs lines 66-68): membership of `n` in the table. -/
def is_prime (n : Nat) (prms : List Nat) : Option Bool :=
  match index_in_prime_list n prms with
  | none => none
  | some (.ok _) => some true
  | some (.error _) => some false

/-- The inner scan of `factor` (src/primes.rs lines 88-102), starting at table
index `i`: the first entry dividing `num` is returned (`some (some i)`); a
non-dividing entry with `p * p > n` (a `u32` product, which wraps — `n` is the
*original* number, not `num`) stops the scan (`some none`), as does table
exhaustion; remainder by a zero entry would panic (`none`). -/
def factor_scan (n num : Nat) : List Nat → Nat → Option (Option Nat)
  | [], _ => some none
  | p :: rest, i =>
    if p = 0 then none
    else if num % p = 0 then some (some i)
    else if p * p % U32MOD > n then some none
    else factor_scan n num rest (i + 1)

/-- The checks after `factor`'s main loop (src/primes.rs lines 107-114);
`(n as f64).sqrt() as u32` is `f64_sqrt_u32 n`, the floor of `√n`. -/
def factor_final (n num : Nat) (prms : List Nat) (factors : List Nat) :
    Option (Except FactorPrimesErrcode (List Nat)) :=
  match prms.getLast? with
  | none => none
  | some last =>
    if f64_sqrt_u32 n > last then some (.error .NotEnoughPrimesToFactorIt)
    else if factors.isEmpty then some (.error .NIsBigPrime)
    else if num > 1 then some (.error .AlgorithmFailed)
    else some (.ok factors)

/-- The main loop of `factor` (src/primes.rs lines 82-106): while `num > 1`,
first try to return `num`'s own table index, then scan for a dividing entry
(restarting the scan from table index 0 after each success); a scan that finds
nothing breaks out to the final checks.  `fuel` bounds the iteration count;
`num` strictly decreases whenever a dividing entry `≥ 2` is found, so for the
prime tables of the claims a fuel of `n` never runs out (`none` on exhaustion
corresponds to the Rust loop running forever on a table containing 1). -/
def factor_loop (n : Nat) (prms : List Nat) : Nat → Nat → List Nat →
    Option (Except FactorPrimesErrcode (List Nat))
  | 0, _, _ => none
  | fuel + 1, num, factors =>
    if num ≤ 1 then factor_final n num prms factors
    else
      match index_in_prime_list num prms with
      | none => none
      | some (.ok i) => some (.ok (factors ++ [i]))
      | some (.error _) =>
        match factor_scan n num prms 0 with
        | none => none
        | some none => factor_final n num prms factors
        | some (some i) =>
          match prms[i]? with
          | none => none
          | some p => factor_loop n prms fuel (num / p) (factors ++ [i])

/-- `factor` (src/primes.rs lines 73-115): `prms.last().unwrap()` (`none` on an
empty table), the `u64` guard `last * last < n` (no overflow on `u64`), then
the trial-division loop.  The fuel `bit_length + 2` bounds the loop entries:
every completed iteration divides `num` by a table entry `≥ 2`, so at most
`log2 n + 1` entries occur before `num` reaches 1 (fuel 34 covers every
`u32`). -/
def factor (n : Nat) (prms : List Nat) : Option (Except FactorPrimesErrcode (List Nat)) :=
  match prms.getLast? with
  | none => none
  | some last =>
    if last * last < n then some (.error .NotEnoughPrimesToFactorIt)
    else factor_loop n prms (bit_length_fuel 34 n + 2) n []

/-- `indices_to_prime_factors` (src/primes.rs lines 120-126): map each index to
its table entry; an out-of-range index panics (`none`). -/
def indices_to_prime_factors : List Nat → List Nat → Option (List Nat)
  | [], _ => some []
  | ix :: rest, prms =>
    match prms[ix]? with
    | none => none
    | some p =>
      match indices_to_prime_factors rest prms with
      | none => none
      | some f => some (p :: f)

/-- The trial-division test of `gen_primes_in_range`'s candidate loop: does any
entry of the (2-stripped) prime slice divide the candidate?  Remainder by a
zero entry panics (`none`). -/
def find_factor (candidate : Nat) : List Nat → Option Bool
  | [] => some false
  | p :: rest =>
    if p = 0 then none
    else if candidate % p = 0 then some true
    else find_factor candidate rest

/-- The candidate loop of `gen_primes_in_range` (src/primes.rs lines 153-170):
test successive odd candidates up to `upper`, collecting survivors; stepping
is guarded so `candidate + 2` is only taken while `candidate < u32::MAX - 1`.
The candidate advances by 2 every iteration, so the fuel `upper + 2` supplied
by `gen_primes_in_range` never runs out (`none` on exhaustion). -/
def gen_candidates_loop (old_slice : List Nat) (upper : Nat) :
    Nat → Nat → List Nat → Option (List Nat)
  | 0, candidate, acc => if candidate ≤ upper then none else some acc
  | fuel + 1, candidate, acc =>
    if candidate ≤ upper then
      match find_factor candidate old_slice with
      | none => none
      | some found =>
        let acc2 := if found then acc else acc ++ [candidate]
        if candidate < 4294967294 then gen_candidates_loop old_slice upper fuel (candidate + 2) acc2
        else some acc2
    else some acc

/-- `gen_primes_in_range` (src/primes.rs lines 136-173): fail with
`PrimesNotEnoughForRange` when `primes_up_to² < upper_bound` (a `u64`
comparison), otherwise trial-divide the odd candidates of
`[lower_bound, upper_bound]` against `old_prms` with the leading 2 stripped.
`old_prms[0]` on an empty table panics (`none`). -/
def gen_primes_in_range (old_prms : List Nat) (primes_up_to lower_bound upper_bound : Nat) :
    Option (Except GenPrimesErrcode (List Nat)) :=
  if primes_up_to * primes_up_to < upper_bound then some (.error .PrimesNotEnoughForRange)
  else
    match old_prms with
    | [] => none
    | p0 :: rest =>
      let old_slice := if p0 = 2 then rest else p0 :: rest
      let c0 := if lower_bound % 2 = 0 then lower_bound + 1 else lower_bound
      match gen_candidates_loop old_slice upper_bound (upper_bound + 2) c0 [] with
      | none => none
      | some new_prms => some (.ok new_prms)

/-- The extension loop of `gen_primes_up_to` (src/primes.rs lines 178-188):
extend the current table by the primes of `(last, min(last², u32::MAX, n)]`
until the upper end reaches `n`.  The `.unwrap()` on a range error panics
(`none`); `fuel` bounds the iterations (the Rust loop has no bound and spins
forever if no new prime is found below `n`). -/
def gen_primes_up_to_loop : Nat → Nat → List Nat → Option (List Nat)
  | 0, _, _ => none
  | fuel + 1, n, prms =>
    match prms.getLast? with
    | none => none
    | some last_prime =>
      let largest_factorable := min (last_prime * last_prime) 4294967295
      let hi := if largest_factorable > n then n else largest_factorable
      match gen_primes_in_range prms last_prime (last_prime + 1) hi with
      | none => none
      | some (.error _) => none
      | some (.ok prms2) =>
        if hi = n then some (prms ++ prms2)
        else gen_primes_up_to_loop fuel n (prms ++ prms2)

/-- `gen_primes_up_to` (src/primes.rs lines 175-190): start from the
`STARTER_PRIMES` `[2, 3, 5]` and extend; fuel `n` is ample for every use in
the claims. -/
def gen_primes_up_to (n : Nat) : Option (List Nat) :=
  gen_primes_up_to_loop n n [2, 3, 5]

/-- `u32::to_be_bytes`: the four big-endian bytes of a `u32`. -/
def to_be_bytes (x : Nat) : List Nat :=
  [x / 16777216 % 256, x / 65536 % 256, x / 256 % 256, x % 256]

/-- The byte stream `write_primes` (src/primes.rs lines 199-225) hands to the
file: each prime's four big-endian bytes, in table order, with no header.
`prms.last().unwrap()` panics on an empty table (`none`). -/
def write_primes_bytes (prms : List Nat) : Option (List Nat) :=
  match prms.getLast? with
  | none => none
  | some _ => some (words_to_bytes prms)
where
  words_to_bytes : List Nat → List Nat
    | [] => []
    | x :: rest => to_be_bytes x ++ words_to_bytes rest

/-- One big-endian `u32` from four bytes (`byteorder::BigEndian`). -/
def from_be_bytes (b0 b1 b2 b3 : Nat) : Nat := ((b0 * 256 + b1) * 256 + b2) * 256 + b3

/-- The word-reading loop of `read_primes`: `count` big-endian records from the
byte stream (`count = file size / 4`, so the byte stream never runs short). -/
def bytes_to_words : Nat → List Nat → List Nat
  | 0, _ => []
  | count + 1, b0 :: b1 :: b2 :: b3 :: rest => from_be_bytes b0 b1 b2 b3 :: bytes_to_words count rest
  | _ + 1, _ => []

/-- `read_primes` (src/primes.rs lines 228-251) as a function of the file's
byte contents: `prime_count = (fsz as u32 / 4)` (line 239) — the `u64` file
size is first truncated modulo `2^32` by the `as u32` cast, then divided by
4, and that many big-endian 4-byte records are read. -/
def read_primes_bytes (bytes : List Nat) : List Nat :=
  bytes_to_words (bytes.length % U32MOD / 4) bytes

end primes

/-- The value denoted by a least-significant-bit-first bit list. -/
def lsb_val : List Bool → Nat
  | [] => 0
  | b :: rest => (if b then 1 else 0) + 2 * lsb_val rest

/-- The 58 primes up to 271, as listed in the source's regression test
`PRIMES_UP_TO_271`. -/
def primes_table_271 : List Nat :=
  [2, 3, 5, 7, 11, 13, 17, 19, 23, 29,
   31, 37, 41, 43, 47, 53, 59, 61, 67, 71,
   73, 79, 83, 89, 97, 101, 103, 107, 109, 113,
   127, 131, 137, 139, 149, 151, 157, 163, 167, 173,
   179, 181, 191, 193, 197, 199, 211, 223, 227, 229,
   233, 239, 241, 251, 257, 263, 269, 271]

/-- The run list `encode_prime.runs_loop` produces, written without the
accumulator (proof-side restatement; `runs_loop v acc cur = acc ++ runs_act v
cur`). -/
def runs_act : List Nat → encode_prime.PrmPwr → List encode_prime.PrmPwr
  | [], cur => [cur]
  | p :: rest, cur =>
    if cur.prm_idx = p then runs_act rest ⟨(cur.exp + 1) % 256, cur.prm_idx⟩
    else cur :: runs_act rest ⟨1, p⟩

/-- Expansion of a run list back to a factor sequence, with the exponent read
back `as u8` as the decoder does. -/
def pp_expand : List encode_prime.PrmPwr → List Nat
  | [] => []
  | r :: t => List.replicate (r.exp % 256) r.prm_idx ++ pp_expand t

/-- The concatenated small-codec exponent fields the encoder emits for a run
list. -/
def exps_concat : List encode_prime.PrmPwr → List Bool
  | [] => []
  | r :: t => SmallIntEncoding.bits (r.exp - 1) ++ exps_concat t

/-- The concatenated general-codec delta fields the encoder emits for a run
list, starting from `prev`. -/
def deltas_concat : Nat → List encode_prime.PrmPwr → List Bool
  | _, [] => []
  | prev, r :: t => U32Encoding.bits (u32_sub r.prm_idx prev) ++ deltas_concat r.prm_idx t

/-- `clip` always yields a buffer of exactly the requested length. -/
theorem clip_length (b : DynBitString) (n : Nat) : (DynBitString.clip b n).length = n := by
  unfold DynBitString.clip
  by_cases h1 : n < b.length
  · simp only [if_pos h1, List.length_take]
    omega
  · simp only [if_neg h1]
    by_cases h2 : n > b.length
    · simp only [if_pos h2, List.length_append, List.length_replicate]
      omega
    · simp only [if_neg h2]
      omega

/-- C7: `clip` is idempotent; shrinking to `n < len(b)` preserves bits
`[0, n)`; growing to `n > len(b)` makes the new bits `[len(b), n)` all zero. -/
theorem clip_idempotent_and_preserving (b : DynBitString) (n : Nat) :
    DynBitString.clip (DynBitString.clip b n) n = DynBitString.clip b n ∧
    (n < b.length → ∀ i, i < n →
      DynBitString.get (DynBitString.clip b n) i = DynBitString.get b i) ∧
    (n > b.length → ∀ i, b.length ≤ i → i < n →
      DynBitString.get (DynBitString.clip b n) i = some false) := by
  refine ⟨?_, ?_, ?_⟩
  · have h := clip_length b n
    generalize DynBitString.clip b n = x at h ⊢
    unfold DynBitString.clip
    rw [h]
    simp
  · intro h1 i hi
    unfold DynBitString.clip DynBitString.get
    simp only [if_pos h1]
    exact List.getElem?_take_of_lt hi
  · intro h2 i hlo hhi
    unfold DynBitString.clip DynBitString.get
    rw [if_neg (by omega), if_pos h2, List.getElem?_append_right hlo]
    rw [List.getElem?_replicate]
    simp only [if_pos (by omega : i - b.length < n - b.length)]

/-- C7 witness: the three clauses at concrete inputs. -/
theorem clip_idempotent_and_preserving_witness :
    DynBitString.clip (DynBitString.clip [true, false, true] 2) 2
      = DynBitString.clip [true, false, true] 2 ∧
    DynBitString.get (DynBitString.clip [true, false, true] 2) 1
      = DynBitString.get [true, false, true] 1 ∧
    DynBitString.get (DynBitString.clip [true, false, true] 5) 4 = some false :=
  ⟨(clip_idempotent_and_preserving [true, false, true] 2).1,
   (clip_idempotent_and_preserving [true, false, true] 2).2.1 (by decide) 1 (by decide),
   (clip_idempotent_and_preserving [true, false, true] 5).2.2 (by decide) 4 (by decide) (by decide)⟩

/-- C9 counterexample: contrary to the claim, the two general-codec revisions
agree on the input 7 — both emit `b010111` (their own unit tests record the
same expected string). -/
theorem append_uint32_revisions_agree_on_7 :
    encoding_uint.append_uint32 7 [] = U32Encoding.append_uint32 [] 7 ∧
    encoding_uint.append_uint32 7 []
      = [false, true, false, true, true, true] := by decide

/-- C9 (amended): the two general-codec revisions in the snapshot do disagree
on some `u32` inputs — 65536 is one (their length fields differ once the
length needs bits beyond the second checkpoint), as is `0xFFFFFFFF` — but not
on 7. -/
theorem append_uint32_revisions_disagree :
    encoding_uint.append_uint32 65536 [] ≠ U32Encoding.append_uint32 [] 65536 ∧
    encoding_uint.append_uint32 4294967295 [] ≠ U32Encoding.append_uint32 [] 4294967295 ∧
    encoding_uint.append_uint32 7 [] = U32Encoding.append_uint32 [] 7 := by decide

/-- Reading back the written big-endian byte stream recovers the table,
word by word. -/
theorem bytes_to_words_words_to_bytes (prms : List Nat) (hbound : ∀ p ∈ prms, p < U32MOD) :
    primes.bytes_to_words prms.length (primes.write_primes_bytes.words_to_bytes prms) = prms := by
  induction prms with
  | nil => rfl
  | cons x rest ih =>
    have hx : x < U32MOD := hbound x (List.mem_cons_self x rest)
    have hrest : ∀ p ∈ rest, p < U32MOD := fun p hp => hbound p (List.mem_cons_of_mem x hp)
    simp only [List.length_cons, primes.write_primes_bytes.words_to_bytes, primes.to_be_bytes,
      List.cons_append, List.nil_append, List.append, primes.bytes_to_words, ih hrest,
      List.cons.injEq, and_true]
    unfold primes.from_be_bytes U32MOD at *
    omega

/-- The written byte stream is four bytes per prime. -/
theorem words_to_bytes_length (prms : List Nat) :
    (primes.write_primes_bytes.words_to_bytes prms).length = 4 * prms.length := by
  induction prms with
  | nil => rfl
  | cons x rest ih =>
    simp only [primes.write_primes_bytes.words_to_bytes, primes.to_be_bytes,
      List.length_append, List.length_cons, List.length_nil, ih, List.length_cons]
    omega

/-- C8 (amended): writing a non-empty `u32` prime table of fewer than `2^30`
entries and reading the resulting byte stream back recovers the table
unchanged; the persisted form is one 4-byte big-endian record per prime with
no header, and the reader derives the record count as `(file size as u32) / 4`
— the `as u32` cast truncates the size modulo `2^32`, which is lossless below
`2^30` entries but loses tables of `2^30` or more (see the counterexample). -/
theorem write_read_primes_round_trip (prms : List Nat) (hne : prms ≠ [])
    (hbound : ∀ p ∈ prms, p < U32MOD) (hlen : prms.length < 1073741824) :
    ∃ bytes, primes.write_primes_bytes prms = some bytes ∧
      bytes.length = 4 * prms.length ∧
      primes.read_primes_bytes bytes = prms := by
  have hlast : ∃ l, prms.getLast? = some l := by
    cases prms with
    | nil => exact absurd rfl hne
    | cons x rest => exact ⟨_, List.getLast?_cons⟩
  obtain ⟨l, hl⟩ := hlast
  refine ⟨primes.write_primes_bytes.words_to_bytes prms, ?_, words_to_bytes_length prms, ?_⟩
  · unfold primes.write_primes_bytes
    rw [hl]
  · unfold primes.read_primes_bytes
    rw [words_to_bytes_length prms]
    have hmod : 4 * prms.length % U32MOD / 4 = prms.length := by
      rw [show U32MOD = 4294967296 from rfl]
      omega
    rw [hmod]
    exact bytes_to_words_words_to_bytes prms hbound

/-- C8 counterexample: the round trip as originally claimed, with no bound on
the table size, is false of the program.  A table of exactly `2^30` entries
persists to a `2^32`-byte file; `read_primes`'s `fsz as u32` cast truncates
that size to 0, so it reads back an empty table. -/
theorem write_read_primes_truncation :
    List.replicate 1073741824 2 ≠ [] ∧
    ∃ bytes,
      primes.write_primes_bytes (List.replicate 1073741824 2) = some bytes ∧
      primes.read_primes_bytes bytes = [] := by
  have hrepl : List.replicate 1073741824 2 = 2 :: List.replicate 1073741823 2 := by
    rw [show (1073741824 : Nat) = 1073741823 + 1 by norm_num, List.replicate_succ]
  constructor
  · rw [hrepl]
    exact List.cons_ne_nil _ _
  · have hgl : ∃ l, (List.replicate 1073741824 2).getLast? = some l := by
      rw [hrepl]
      exact ⟨_, List.getLast?_cons⟩
    obtain ⟨l, hl⟩ := hgl
    refine ⟨primes.write_primes_bytes.words_to_bytes (List.replicate 1073741824 2), ?_, ?_⟩
    · unfold primes.write_primes_bytes
      rw [hl]
    · unfold primes.read_primes_bytes
      rw [words_to_bytes_length, List.length_replicate]
      have h0 : 4 * 1073741824 % U32MOD / 4 = 0 := by
        rw [show U32MOD = 4294967296 from rfl]
      rw [h0]
      rfl

/-- C8 witness: the 58-entry table `gen_primes_up_to(271)` round-trips through
the persisted byte form. -/
theorem write_read_primes_round_trip_witness :
    primes.gen_primes_up_to 271 = some primes_table_271 ∧ primes_table_271.length = 58 ∧
    ∃ bytes, primes.write_primes_bytes primes_table_271 = some bytes ∧
      bytes.length = 4 * primes_table_271.length ∧
      primes.read_primes_bytes bytes = primes_table_271 :=
  ⟨by decide, by decide,
   write_read_primes_round_trip primes_table_271 (by decide) (by decide) (by decide)⟩

/-- C6: `gen_primes_up_to(271)` returns exactly the ascending list of the 58
primes up to 271; every entry satisfies `is_prime` against the result; the
result is strictly increasing, begins `2, 3, 5`, and ends 271. -/
theorem gen_primes_up_to_271_correct :
    primes.gen_primes_up_to 271 = some primes_table_271 ∧
    primes_table_271.length = 58 ∧
    (∀ p ∈ primes_table_271, primes.is_prime p primes_table_271 = some true) ∧
    List.Pairwise (· < ·) primes_table_271 ∧
    primes_table_271.take 3 = [2, 3, 5] ∧
    primes_table_271.getLast? = some 271 := by
  refine ⟨by decide, by decide, by decide, by decide, by decide, by decide⟩

/-- Looking up position `pre.length + k` of `pre ++ l ++ suf` reads `l[k]`. -/
theorem getElem_at (pre l suf : List Bool) (k : Nat) (b : Bool) (hk : l[k]? = some b) :
    (pre ++ l ++ suf)[pre.length + k]? = some b := by
  have hlt : k < l.length := by
    by_contra hcon
    rw [List.getElem?_eq_none (by omega)] at hk
    exact Option.noConfusion hk
  rw [List.append_assoc, List.getElem?_append_right (Nat.le_add_right _ _)]
  simp only [Nat.add_sub_cancel_left]
  rw [List.getElem?_append, if_pos hlt, hk]

/-- Looking up position `pre.length` of `pre ++ l ++ suf` reads `l[0]`. -/
theorem getElem_at0 (pre l suf : List Bool) (b : Bool) (hk : l[0]? = some b) :
    (pre ++ l ++ suf)[pre.length]? = some b := by
  have h := getElem_at pre l suf 0 b hk
  simpa using h

/-- A codec flag-conditional contributes its weight times the selected bit. -/
theorem cond_bit_mul (n c : Nat) : (if (n % 2 == 1) = true then c else 0) = c * (n % 2) := by
  rcases Nat.mod_two_eq_zero_or_one n with h | h <;> simp [h]

/-- The small-value codec reads back exactly the bits it wrote, at any
position in a larger buffer, and advances the cursor over exactly them. -/
theorem small_read_bits (pre suf : List Bool) (v : Nat) (hv : v < 32) :
    SmallIntEncoding.read_uint32 (pre ++ SmallIntEncoding.bits v ++ suf) pre.length
      = some (v, pre.length + (SmallIntEncoding.bits v).length) := by
  unfold SmallIntEncoding.bits
  by_cases h1 : v / 2 = 0
  · simp only [if_pos h1]
    rw [SmallIntEncoding.read_uint32,
      getElem_at0 pre _ suf (v % 2 == 1) rfl, getElem_at pre _ suf 1 false rfl]
    simp only [Bool.false_eq_true, if_false, if_true, List.length_cons, List.length_nil,
      Option.some.injEq, Prod.mk.injEq, beq_iff_eq, and_true]
    split_ifs <;> omega
  · by_cases h3 : v / 2 / 4 = 0
    · simp only [if_neg h1, if_pos h3]
      rw [SmallIntEncoding.read_uint32,
        getElem_at0 pre _ suf (v % 2 == 1) rfl, getElem_at pre _ suf 1 true rfl,
        getElem_at pre _ suf 2 (v / 2 % 2 == 1) rfl,
        getElem_at pre _ suf 3 (v / 2 / 2 % 2 == 1) rfl,
        getElem_at pre _ suf 4 false rfl]
      simp only [if_true, Bool.false_eq_true, if_false, List.length_cons, List.length_nil,
        Option.some.injEq, Prod.mk.injEq, beq_iff_eq, and_true]
      split_ifs <;> omega
    · simp only [if_neg h1, if_neg h3]
      rw [SmallIntEncoding.read_uint32,
        getElem_at0 pre _ suf (v % 2 == 1) rfl, getElem_at pre _ suf 1 true rfl,
        getElem_at pre _ suf 2 (v / 2 % 2 == 1) rfl,
        getElem_at pre _ suf 3 (v / 2 / 2 % 2 == 1) rfl,
        getElem_at pre _ suf 4 true rfl,
        getElem_at pre _ suf 5 (v / 2 / 4 % 2 == 1) rfl,
        getElem_at pre _ suf 6 (v / 2 / 4 / 2 % 2 == 1) rfl]
      simp only [if_true, List.length_cons, List.length_nil,
        Option.some.injEq, Prod.mk.injEq, beq_iff_eq, and_true]
      split_ifs <;> omega

/-- The emitted value bits and the bit-length computation agree, fuel for
fuel. -/
theorem val_bits_fuel_length : ∀ f v, (U32Encoding.val_bits_fuel f v).length = bit_length_fuel f v := by
  intro f
  induction f with
  | zero => intro v; rfl
  | succ f ih =>
    intro v
    by_cases h : v = 0 <;> simp [U32Encoding.val_bits_fuel, bit_length_fuel, h, ih]

/-- The bit length is bounded by its fuel. -/
theorem bit_length_fuel_le : ∀ f v, bit_length_fuel f v ≤ f := by
  intro f
  induction f with
  | zero => intro v; exact Nat.le_refl 0
  | succ f ih =>
    intro v
    by_cases h : v = 0
    · simp [bit_length_fuel, h]
    · simp only [bit_length_fuel, if_neg h]
      exact Nat.succ_le_succ (ih (v / 2))

/-- A nonzero value has a positive bit length. -/
theorem bit_length_fuel_pos (f v : Nat) (h : v ≠ 0) : 1 ≤ bit_length_fuel (f + 1) v := by
  simp [bit_length_fuel, h]

/-- The least-significant-first value bits denote the encoded value. -/
theorem lsb_val_val_bits_fuel : ∀ f v, v < 2 ^ f → lsb_val (U32Encoding.val_bits_fuel f v) = v := by
  intro f
  induction f with
  | zero =>
    intro v hv
    interval_cases v
    rfl
  | succ f ih =>
    intro v hv
    by_cases h : v = 0
    · simp [U32Encoding.val_bits_fuel, h, lsb_val]
    · have hdiv : v / 2 < 2 ^ f := by
        rw [Nat.div_lt_iff_lt_mul (by omega)]
        calc v < 2 ^ (f + 1) := hv
        _ = 2 ^ f * 2 := by rw [Nat.pow_succ]
      simp only [U32Encoding.val_bits_fuel, if_neg h, lsb_val, ih (v / 2) hdiv, beq_iff_eq]
      split_ifs <;> omega

/-- The raw-value read loop reads back any bit list placed at its cursor and
advances the cursor over exactly that list. -/
theorem read_bits_lsb_exact (l : List Bool) : ∀ pre suf : List Bool,
    U32Encoding.read_bits_lsb (pre ++ l ++ suf) pre.length l.length
      = some (lsb_val l, pre.length + l.length) := by
  induction l with
  | nil =>
    intro pre suf
    simp [U32Encoding.read_bits_lsb, lsb_val]
  | cons b t ih =>
    intro pre suf
    have ih3 : U32Encoding.read_bits_lsb (pre ++ (b :: t) ++ suf) (pre.length + 1) t.length
        = some (lsb_val t, pre.length + 1 + t.length) := by
      have h := ih (pre ++ [b]) suf
      simpa [List.append_assoc] using h
    have e0 : (pre ++ (b :: t) ++ suf)[pre.length]? = some b := getElem_at0 pre _ suf b (by simp)
    simp only [List.length_cons, U32Encoding.read_bits_lsb, e0, ih3, lsb_val,
      Option.some.injEq, Prod.mk.injEq]
    exact ⟨trivial, by omega⟩

/-- Parsing the length field: the reader consumes the emitted length field for
`L ≤ 31` (3 bits without continuation, 6 with) and proceeds to read `L + 1`
raw value bits. -/
theorem u32_read_len_field (pre suf : List Bool) (L : Nat) (hL : L ≤ 31) (vb : List Bool) :
    U32Encoding.read_uint32 (pre ++ (U32Encoding.len_bits L ++ vb) ++ suf) pre.length
      = U32Encoding.read_bits_lsb (pre ++ (U32Encoding.len_bits L ++ vb) ++ suf)
          (pre.length + (U32Encoding.len_bits L).length) (L + 1) := by
  by_cases hc : L / 4 = 0
  · have hlb : U32Encoding.len_bits L = [L % 2 == 1, L / 2 % 2 == 1, false] := by
      unfold U32Encoding.len_bits
      rw [if_pos hc]
    rw [hlb]
    rw [U32Encoding.read_uint32,
      getElem_at0 pre _ suf (L % 2 == 1) (by simp),
      getElem_at pre _ suf 1 (L / 2 % 2 == 1) (by simp),
      getElem_at pre _ suf 2 false (by simp)]
    simp only [Bool.false_eq_true, if_false, List.length_cons, List.length_nil, beq_iff_eq]
    have hv01 : ((if L % 2 = 1 then 1 else 0) + if L / 2 % 2 = 1 then 2 else 0) = L := by
      split_ifs <;> omega
    rw [hv01]
  · have hlb : U32Encoding.len_bits L
        = [L % 2 == 1, L / 2 % 2 == 1, true, L / 4 % 2 == 1, L / 8 % 2 == 1, L / 16 % 2 == 1] := by
      unfold U32Encoding.len_bits
      rw [if_neg hc]
    rw [hlb]
    rw [U32Encoding.read_uint32,
      getElem_at0 pre _ suf (L % 2 == 1) (by simp),
      getElem_at pre _ suf 1 (L / 2 % 2 == 1) (by simp),
      getElem_at pre _ suf 2 true (by simp),
      getElem_at pre _ suf 3 (L / 4 % 2 == 1) (by simp),
      getElem_at pre _ suf 4 (L / 8 % 2 == 1) (by simp),
      getElem_at pre _ suf 5 (L / 16 % 2 == 1) (by simp)]
    simp only [if_true, List.length_cons, List.length_nil, beq_iff_eq]
    have hv5 : (((if L % 2 = 1 then 1 else 0) + if L / 2 % 2 = 1 then 2 else 0)
        + (if L / 4 % 2 = 1 then 4 else 0) + (if L / 8 % 2 = 1 then 8 else 0)
        + if L / 16 % 2 = 1 then 16 else 0) = L := by
      split_ifs <;> omega
    rw [hv5]

/-- The general codec reads back exactly the bits it wrote, at any position in
a larger buffer, and advances the cursor over exactly them. -/
theorem u32_read_bits (pre suf : List Bool) (v : Nat) (hv : v < U32MOD) :
    U32Encoding.read_uint32 (pre ++ U32Encoding.bits v ++ suf) pre.length
      = some (v, pre.length + (U32Encoding.bits v).length) := by
  have hv2 : v < 2 ^ 32 := by
    have h32 : U32MOD = 2 ^ 32 := by norm_num [U32MOD]
    rw [h32] at hv
    exact hv
  have hval : lsb_val (if v = 0 then [false] else U32Encoding.val_bits v) = v := by
    by_cases h : v = 0
    · simp [h, lsb_val]
    · simp only [if_neg h]
      exact lsb_val_val_bits_fuel 32 v hv2
  have hlen : (if v = 0 then [false] else U32Encoding.val_bits v).length
      = U32Encoding.len_bitct v + 1 := by
    by_cases h : v = 0
    · simp [h, U32Encoding.len_bitct]
    · simp only [if_neg h, U32Encoding.val_bits, val_bits_fuel_length, U32Encoding.len_bitct]
      have hp : 1 ≤ bit_length_fuel 32 v := bit_length_fuel_pos 31 v h
      omega
  have hL31 : U32Encoding.len_bitct v ≤ 31 := by
    unfold U32Encoding.len_bitct
    by_cases h : v = 0
    · simp [h]
    · simp only [if_neg h]
      have hle := bit_length_fuel_le 32 v
      omega
  generalize hvb : (if v = 0 then [false] else U32Encoding.val_bits v) = vb at hval hlen
  generalize hLg : U32Encoding.len_bitct v = L at hlen hL31
  have hbits : U32Encoding.bits v = U32Encoding.len_bits L ++ vb := by
    unfold U32Encoding.bits
    rw [hLg, hvb]
  rw [hbits, u32_read_len_field pre suf L hL31 vb]
  have hread := read_bits_lsb_exact vb (pre ++ U32Encoding.len_bits L) suf
  rw [hval, hlen] at hread
  rw [show (pre ++ U32Encoding.len_bits L) ++ vb ++ suf
      = pre ++ (U32Encoding.len_bits L ++ vb) ++ suf by simp [List.append_assoc],
    List.length_append] at hread
  rw [hread]
  simp only [Option.some.injEq, Prod.mk.injEq, List.length_append]
  exact ⟨trivial, by omega⟩

/-- C3: for every `u32` value `v` (including 0 and `0xFFFFFFFF`), appending
`v` to a buffer with the general codec `U32Encoding::append_uint32` and then
reading from the start of that encoding with `U32Encoding::read_uint32`
yields `v` exactly, and the read advances the cursor by exactly the number of
bits the append emitted (the code is self-delimiting). -/
theorem u32_codec_round_trip (bs : List Bool) (v : Nat) (hv : v < U32MOD) :
    U32Encoding.read_uint32 (U32Encoding.append_uint32 bs v) bs.length
      = some (v, (U32Encoding.append_uint32 bs v).length) := by
  have h := u32_read_bits bs [] v hv
  simp only [List.append_nil] at h
  unfold U32Encoding.append_uint32
  rw [h]
  simp [List.length_append]

/-- C3 witness: the endpoints of the `u32` range round-trip. -/
theorem u32_codec_round_trip_witness :
    U32Encoding.read_uint32 (U32Encoding.append_uint32 [] 4294967295) 0
        = some (4294967295, (U32Encoding.append_uint32 [] 4294967295).length) ∧
    U32Encoding.read_uint32 (U32Encoding.append_uint32 [] 0) 0
        = some (0, (U32Encoding.append_uint32 [] 0).length) :=
  ⟨u32_codec_round_trip [] 4294967295 (by decide), u32_codec_round_trip [] 0 (by decide)⟩

/-- Projection of a literal prime power. -/
theorem PrmPwr_exp_mk (e i : Nat) : (⟨e, i⟩ : encode_prime.PrmPwr).exp = e := rfl

/-- Projection of a literal prime power. -/
theorem PrmPwr_idx_mk (e i : Nat) : (⟨e, i⟩ : encode_prime.PrmPwr).prm_idx = i := rfl

/-- `runs_loop` is `runs_act` prefixed by its accumulator. -/
theorem runs_loop_eq (v : List Nat) : ∀ (acc : List encode_prime.PrmPwr) (cur : encode_prime.PrmPwr),
    encode_prime.runs_loop v acc cur = acc ++ runs_act v cur := by
  induction v with
  | nil => intro acc cur; rfl
  | cons p rest ih =>
    intro acc cur
    unfold encode_prime.runs_loop runs_act
    by_cases h : cur.prm_idx = p
    · rw [if_pos h, if_pos h, ih]
    · rw [if_neg h, if_neg h, ih]
      simp

/-- A run list is never empty. -/
theorem runs_act_ne_nil (v : List Nat) : ∀ cur, runs_act v cur ≠ [] := by
  induction v with
  | nil => intro cur; simp [runs_act]
  | cons p rest ih =>
    intro cur
    unfold runs_act
    by_cases h : cur.prm_idx = p
    · rw [if_pos h]; exact ih _
    · rw [if_neg h]; simp

/-- Expanding the run list of a non-decreasing tail rebuilds `e` pending
copies of the current index followed by the tail itself. -/
theorem pp_expand_runs_act (v : List Nat) : ∀ (a e : Nat), List.Chain (· ≤ ·) a v →
    e + v.count a ≤ 255 → (∀ x ∈ v, v.count x ≤ 255) →
    pp_expand (runs_act v ⟨e, a⟩) = List.replicate e a ++ v := by
  induction v with
  | nil =>
    intro a e _ he _
    have : e % 256 = e := Nat.mod_eq_of_lt (by simpa using Nat.lt_succ_of_le (by simpa using he))
    simp [runs_act, pp_expand, this]
  | cons p rest ih =>
    intro a e hch he hc
    rcases List.chain_cons.mp hch with ⟨hap, hch'⟩
    unfold runs_act
    simp only [PrmPwr_exp_mk, PrmPwr_idx_mk]
    by_cases h : a = p
    · rw [if_pos h]
      subst h
      have hcnt : (a :: rest).count a = rest.count a + 1 := by
        simp [List.count_cons]
      have he' : (e + 1) % 256 = e + 1 := Nat.mod_eq_of_lt (by omega)
      rw [he']
      rw [ih a (e + 1) hch' (by omega)
        (fun x hx => le_trans (List.count_le_count_cons x a rest) (hc x (List.mem_cons_of_mem a hx)))]
      rw [List.replicate_succ' e a]
      simp
    · simp only [if_neg h]
      have h1p : 1 + rest.count p ≤ 255 := by
        have := hc p (List.mem_cons_self p rest)
        simp [List.count_cons] at this
        omega
      rw [pp_expand, ih p 1 hch' h1p
        (fun x hx => le_trans (List.count_le_count_cons x p rest) (hc x (List.mem_cons_of_mem p hx)))]
      have he255 : e % 256 = e := Nat.mod_eq_of_lt (by omega)
      simp [he255]

/-- Every run the transform produces from a pending run `⟨e, a⟩` with `e ≥ 1`
has an exponent between 1 and the occurrence bound `B`. -/
theorem runs_act_exp_bounds (v : List Nat) : ∀ (a e B : Nat), List.Chain (· ≤ ·) a v →
    1 ≤ e → B ≤ 255 → e + v.count a ≤ B → (∀ x ∈ v, v.count x ≤ B) →
    ∀ r ∈ runs_act v ⟨e, a⟩, 1 ≤ r.exp ∧ r.exp ≤ B := by
  induction v with
  | nil =>
    intro a e B _ he1 _ heB _ r hr
    simp only [runs_act, List.mem_singleton] at hr
    subst hr
    exact ⟨he1, show e ≤ B by omega⟩
  | cons p rest ih =>
    intro a e B hch he1 hB heB hc
    rcases List.chain_cons.mp hch with ⟨hap, hch'⟩
    unfold runs_act
    simp only [PrmPwr_exp_mk, PrmPwr_idx_mk]
    by_cases h : a = p
    · rw [if_pos h]
      subst h
      have hcount : (a :: rest).count a = rest.count a + 1 := by simp [List.count_cons]
      have he' : (e + 1) % 256 = e + 1 := Nat.mod_eq_of_lt (by omega)
      rw [he']
      exact ih a (e + 1) B hch' (by omega) hB (by omega)
        (fun x hx => le_trans (List.count_le_count_cons x a rest) (hc x (List.mem_cons_of_mem a hx)))
    · rw [if_neg h]
      intro r hr
      rcases List.mem_cons.mp hr with hr1 | hr2
      · subst hr1
        exact ⟨he1, show e ≤ B by omega⟩
      · have hpc := hc p (List.mem_cons_self p rest)
        have hpcount : (p :: rest).count p = rest.count p + 1 := by simp [List.count_cons]
        exact ih p 1 B hch' le_rfl hB (by omega)
          (fun x hx => le_trans (List.count_le_count_cons x p rest)
            (hc x (List.mem_cons_of_mem p hx))) r hr2

/-- The indices of the run list start at the pending index and are strictly
increasing. -/
theorem runs_act_idx_chain (v : List Nat) : ∀ (a e : Nat), List.Chain (· ≤ ·) a v →
    ∃ t, (runs_act v ⟨e, a⟩).map encode_prime.PrmPwr.prm_idx = a :: t ∧
      List.Chain (· < ·) a t := by
  induction v with
  | nil =>
    intro a e _
    exact ⟨[], rfl, List.Chain.nil⟩
  | cons p rest ih =>
    intro a e hch
    rcases List.chain_cons.mp hch with ⟨hap, hch'⟩
    unfold runs_act
    simp only [PrmPwr_exp_mk, PrmPwr_idx_mk]
    by_cases h : a = p
    · rw [if_pos h]
      subst h
      exact ih a ((e + 1) % 256) hch'
    · rw [if_neg h]
      rcases ih p 1 hch' with ⟨t2, ht2, hcht2⟩
      refine ⟨p :: t2, ?_, ?_⟩
      · simp [ht2, PrmPwr_idx_mk]
      · exact List.chain_cons.mpr ⟨lt_of_le_of_ne hap h, hcht2⟩

/-- Every index in the run list is the pending index or an input element. -/
theorem runs_act_idx_mem (v : List Nat) : ∀ (a e : Nat),
    ∀ r ∈ runs_act v ⟨e, a⟩, r.prm_idx = a ∨ r.prm_idx ∈ v := by
  induction v with
  | nil =>
    intro a e r hr
    simp only [runs_act, List.mem_singleton] at hr
    subst hr
    left
    rfl
  | cons p rest ih =>
    intro a e r hr
    unfold runs_act at hr
    simp only [PrmPwr_exp_mk, PrmPwr_idx_mk] at hr
    by_cases h : a = p
    · rw [if_pos h] at hr
      rcases ih a ((e + 1) % 256) r hr with h1 | h2
      · left; exact h1
      · right; exact List.mem_cons_of_mem p h2
    · rw [if_neg h] at hr
      rcases List.mem_cons.mp hr with hr1 | hr2
      · subst hr1
        left
        rfl
      · rcases ih p 1 r hr2 with h1 | h2
        · right; rw [h1]; exact List.mem_cons_self p rest
        · right; exact List.mem_cons_of_mem p h2

/-- The exponent-emitting loop succeeds on runs with exponents in `[1, 32]`
and appends exactly the concatenated exponent fields. -/
theorem append_exps_eq (rs : List encode_prime.PrmPwr) : ∀ bs : List Bool,
    (∀ r ∈ rs, 1 ≤ r.exp ∧ r.exp ≤ 32) →
    encode_prime.append_exps bs rs = some (bs ++ exps_concat rs) := by
  induction rs with
  | nil =>
    intro bs _
    simp [encode_prime.append_exps, exps_concat]
  | cons r t ih =>
    intro bs hb
    have hr := hb r (List.mem_cons_self r t)
    unfold encode_prime.append_exps
    rw [if_neg (by omega)]
    unfold SmallIntEncoding.append_uint32
    rw [if_pos (by omega)]
    show encode_prime.append_exps (bs ++ SmallIntEncoding.bits (r.exp - 1)) t
      = some (bs ++ exps_concat (r :: t))
    rw [ih (bs ++ SmallIntEncoding.bits (r.exp - 1))
      (fun x hx => hb x (List.mem_cons_of_mem r hx))]
    simp [exps_concat, List.append_assoc]

/-- The delta-emitting loop appends exactly the concatenated delta fields. -/
theorem append_idxs_eq (rs : List encode_prime.PrmPwr) : ∀ (bs : List Bool) (prev : Nat),
    encode_prime.append_idxs bs prev rs = bs ++ deltas_concat prev rs := by
  induction rs with
  | nil =>
    intro bs prev
    simp [encode_prime.append_idxs, deltas_concat]
  | cons r t ih =>
    intro bs prev
    unfold encode_prime.append_idxs deltas_concat U32Encoding.append_uint32
    rw [ih]
    simp [List.append_assoc]

/-- The run list of a non-empty, non-decreasing factor sequence in which each
index occurs at most 32 times: the transform succeeds, exponents lie in
`[1, 32]`, indices start at the head and increase strictly, and expansion
rebuilds the input. -/
theorem runs_facts (p0 : Nat) (rest : List Nat)
    (hch : List.Chain (· ≤ ·) p0 rest)
    (hcnt : ∀ x, List.count x (p0 :: rest) ≤ 32) :
    ∃ rs, encode_prime.factors_to_int_as_prms (p0 :: rest) = some rs ∧
      rs = runs_act rest ⟨1, p0⟩ ∧
      (∀ r ∈ rs, 1 ≤ r.exp ∧ r.exp ≤ 32) ∧
      (∃ t, rs.map encode_prime.PrmPwr.prm_idx = p0 :: t ∧ List.Chain (· < ·) p0 t) ∧
      pp_expand rs = p0 :: rest ∧
      rs ≠ [] ∧
      (∀ r ∈ rs, r.prm_idx = p0 ∨ r.prm_idx ∈ rest) := by
  have hstep : encode_prime.factors_to_int_as_prms (p0 :: rest) = some (runs_act rest ⟨1, p0⟩) := by
    have h0 : encode_prime.factors_to_int_as_prms (p0 :: rest)
        = some (encode_prime.runs_loop (p0 :: rest) [] ⟨0, p0⟩) := rfl
    rw [h0, runs_loop_eq]
    conv_lhs => rw [runs_act]
    simp
  have hc0 : 1 + rest.count p0 ≤ 32 := by
    have := hcnt p0
    simp [List.count_cons] at this
    omega
  have hcr : ∀ x ∈ rest, rest.count x ≤ 32 :=
    fun x hx => le_trans (List.count_le_count_cons x p0 rest) (hcnt x)
  refine ⟨runs_act rest ⟨1, p0⟩, hstep, rfl, ?_, ?_, ?_, runs_act_ne_nil rest _, ?_⟩
  · exact runs_act_exp_bounds rest p0 1 32 hch le_rfl (by omega) hc0 hcr
  · exact runs_act_idx_chain rest p0 1 hch
  · rw [pp_expand_runs_act rest p0 1 hch (by omega) (fun x hx => le_trans (hcr x hx) (by omega))]
    simp
  · exact runs_act_idx_mem rest p0 1

/-- Under the amended preconditions the encoder succeeds and emits the
run-count field, then the exponent fields, then the delta fields, in order,
into one bit string. -/
theorem encode_factors_eq (p0 : Nat) (rest : List Nat) (rs : List encode_prime.PrmPwr)
    (hrs : encode_prime.factors_to_int_as_prms (p0 :: rest) = some rs)
    (hexp : ∀ r ∈ rs, 1 ≤ r.exp ∧ r.exp ≤ 32)
    (hne : rs ≠ [])
    (hlen : rs.length ≤ 32) :
    encode_prime.encode_factors (p0 :: rest)
      = some (SmallIntEncoding.bits (rs.length - 1) ++ exps_concat rs ++ deltas_concat 0 rs) := by
  have hlpos : 1 ≤ rs.length := List.length_pos_of_ne_nil hne
  unfold encode_prime.encode_factors
  rw [hrs]
  simp only [List.isEmpty_cons, Bool.false_eq_true, if_false]
  rw [if_neg (by omega)]
  unfold SmallIntEncoding.append_uint32
  rw [if_pos (by omega)]
  simp only [List.nil_append]
  rw [append_exps_eq rs (SmallIntEncoding.bits (rs.length - 1)) hexp]
  simp only []
  rw [append_idxs_eq rs (SmallIntEncoding.bits (rs.length - 1) ++ exps_concat rs) 0]

/-- One step of the exponent-reading loop. -/
theorem read_exps_step (bs : List Bool) (cursor count e c : Nat) (rest : List Nat) (c2 : Nat)
    (h1 : SmallIntEncoding.read_uint32 bs cursor = some (e, c))
    (h2 : encode_prime.read_exps bs c count = some (rest, c2)) :
    encode_prime.read_exps bs cursor (count + 1) = some ((e + 1) :: rest, c2) := by
  unfold encode_prime.read_exps
  rw [h1]
  show (match encode_prime.read_exps bs c count with
    | none => none
    | some (rest2, c3) => some ((e + 1) :: rest2, c3)) = some ((e + 1) :: rest, c2)
  rw [h2]

/-- One step of the index-reading loop. -/
theorem read_idxs_step (bs : List Bool) (cursor prev count d c : Nat) (rest : List Nat)
    (c2 idx : Nat) (hidx : u32_add d prev = idx)
    (h1 : U32Encoding.read_uint32 bs cursor = some (d, c))
    (h2 : encode_prime.read_idxs bs c idx count = some (rest, c2)) :
    encode_prime.read_idxs bs cursor prev (count + 1) = some (idx :: rest, c2) := by
  unfold encode_prime.read_idxs
  rw [h1]
  show (match encode_prime.read_idxs bs c (u32_add d prev) count with
    | none => none
    | some (rest2, c3) => some (u32_add d prev :: rest2, c3)) = some (idx :: rest, c2)
  rw [hidx, h2]

/-- The exponent-reading loop reads back the concatenated exponent fields,
adding back the 1 the encoder subtracted. -/
theorem read_exps_concat (rs : List encode_prime.PrmPwr) : ∀ (pre suf : List Bool),
    (∀ r ∈ rs, 1 ≤ r.exp ∧ r.exp ≤ 32) →
    encode_prime.read_exps (pre ++ exps_concat rs ++ suf) pre.length rs.length
      = some (rs.map encode_prime.PrmPwr.exp, pre.length + (exps_concat rs).length) := by
  induction rs with
  | nil =>
    intro pre suf _
    simp [encode_prime.read_exps, exps_concat]
  | cons r t ih =>
    intro pre suf hb
    have hr := hb r (List.mem_cons_self r t)
    have h1 : SmallIntEncoding.read_uint32 (pre ++ exps_concat (r :: t) ++ suf) pre.length
        = some (r.exp - 1, pre.length + (SmallIntEncoding.bits (r.exp - 1)).length) := by
      have h := small_read_bits pre (exps_concat t ++ suf) (r.exp - 1) (by omega)
      simpa [exps_concat, List.append_assoc] using h
    have ih2 := ih (pre ++ SmallIntEncoding.bits (r.exp - 1)) suf
      (fun x hx => hb x (List.mem_cons_of_mem r hx))
    rw [show (pre ++ SmallIntEncoding.bits (r.exp - 1)) ++ exps_concat t ++ suf
        = pre ++ exps_concat (r :: t) ++ suf from by simp [exps_concat, List.append_assoc],
      List.length_append] at ih2
    have hstep := read_exps_step (pre ++ exps_concat (r :: t) ++ suf) pre.length t.length
      (r.exp - 1) (pre.length + (SmallIntEncoding.bits (r.exp - 1)).length)
      (t.map encode_prime.PrmPwr.exp)
      (pre.length + (SmallIntEncoding.bits (r.exp - 1)).length + (exps_concat t).length)
      h1 ih2
    simp only [List.length_cons]
    rw [hstep]
    simp only [Option.some.injEq, Prod.mk.injEq, exps_concat, List.length_append, List.map_cons]
    refine ⟨by rw [List.cons.injEq]; exact ⟨by omega, rfl⟩, by omega⟩

/-- The index-reading loop reads back the concatenated delta fields,
reconstructing the absolute indices by the running sum. -/
theorem read_idxs_concat (rs : List encode_prime.PrmPwr) : ∀ (pre suf : List Bool) (prev : Nat),
    prev < U32MOD → (∀ r ∈ rs, r.prm_idx < U32MOD) →
    List.Chain (· ≤ ·) prev (rs.map encode_prime.PrmPwr.prm_idx) →
    encode_prime.read_idxs (pre ++ deltas_concat prev rs ++ suf) pre.length prev rs.length
      = some (rs.map encode_prime.PrmPwr.prm_idx, pre.length + (deltas_concat prev rs).length) := by
  induction rs with
  | nil =>
    intro pre suf prev _ _ _
    simp [encode_prime.read_idxs, deltas_concat]
  | cons r t ih =>
    intro pre suf prev hprev hb hch
    rcases List.chain_cons.mp (by simpa using hch) with ⟨hpr, hch'⟩
    have hrU : r.prm_idx < U32MOD := hb r (List.mem_cons_self r t)
    have hsub : u32_sub r.prm_idx prev < U32MOD
        ∧ u32_add (u32_sub r.prm_idx prev) prev = r.prm_idx := by
      unfold u32_sub u32_add U32MOD at *
      constructor <;> omega
    have h1 : U32Encoding.read_uint32 (pre ++ deltas_concat prev (r :: t) ++ suf) pre.length
        = some (u32_sub r.prm_idx prev,
            pre.length + (U32Encoding.bits (u32_sub r.prm_idx prev)).length) := by
      have h := u32_read_bits pre (deltas_concat r.prm_idx t ++ suf) (u32_sub r.prm_idx prev)
        hsub.1
      simpa [deltas_concat, List.append_assoc] using h
    have ih2 := ih (pre ++ U32Encoding.bits (u32_sub r.prm_idx prev)) suf r.prm_idx hrU
      (fun x hx => hb x (List.mem_cons_of_mem r hx)) hch'
    rw [show (pre ++ U32Encoding.bits (u32_sub r.prm_idx prev)) ++ deltas_concat r.prm_idx t ++ suf
        = pre ++ deltas_concat prev (r :: t) ++ suf from by simp [deltas_concat, List.append_assoc],
      List.length_append] at ih2
    have hstep := read_idxs_step (pre ++ deltas_concat prev (r :: t) ++ suf) pre.length prev
      t.length (u32_sub r.prm_idx prev)
      (pre.length + (U32Encoding.bits (u32_sub r.prm_idx prev)).length)
      (t.map encode_prime.PrmPwr.prm_idx)
      (pre.length + (U32Encoding.bits (u32_sub r.prm_idx prev)).length
        + (deltas_concat r.prm_idx t).length)
      r.prm_idx hsub.2 h1 ih2
    simp only [List.length_cons]
    rw [hstep]
    simp only [Option.some.injEq, Prod.mk.injEq, deltas_concat, List.length_append, List.map_cons,
      true_and, and_true, eq_self_iff_true]
    omega

/-- The decoder's two-list expansion agrees with run-list expansion. -/
theorem expand_map (rs : List encode_prime.PrmPwr) :
    encode_prime.expand (rs.map encode_prime.PrmPwr.exp) (rs.map encode_prime.PrmPwr.prm_idx)
      = pp_expand rs := by
  induction rs with
  | nil => rfl
  | cons r t ih =>
    simp only [List.map_cons, encode_prime.expand, pp_expand, ih]

/-- `decode_factors` unfolded over its three successful reads. -/
theorem decode_factors_steps (bs : List Bool) (l0 c1 : Nat) (exps : List Nat) (c2 : Nat)
    (idxs : List Nat) (c3 : Nat)
    (h1 : SmallIntEncoding.read_uint32 bs 0 = some (l0, c1))
    (h2 : encode_prime.read_exps bs c1 (l0 + 1) = some (exps, c2))
    (h3 : encode_prime.read_idxs bs c2 0 (l0 + 1) = some (idxs, c3)) :
    encode_prime.decode_factors bs = some (encode_prime.expand exps idxs) := by
  unfold encode_prime.decode_factors
  rw [h1]
  show (match encode_prime.read_exps bs c1 (l0 + 1) with
    | none => none
    | some (exps2, c4) =>
      match encode_prime.read_idxs bs c4 0 (l0 + 1) with
      | none => none
      | some (idxs2, _) => some (encode_prime.expand exps2 idxs2))
    = some (encode_prime.expand exps idxs)
  rw [h2]
  show (match encode_prime.read_idxs bs c2 0 (l0 + 1) with
    | none => none
    | some (idxs2, _) => some (encode_prime.expand exps idxs2))
    = some (encode_prime.expand exps idxs)
  rw [h3]

/-- Decoding the encoder's output recovers the expansion of the run list. -/
theorem decode_factors_eq (rs : List encode_prime.PrmPwr)
    (hexp : ∀ r ∈ rs, 1 ≤ r.exp ∧ r.exp ≤ 32)
    (hne : rs ≠ [])
    (hlen : rs.length ≤ 32)
    (hidxU : ∀ r ∈ rs, r.prm_idx < U32MOD)
    (hch : List.Chain (· ≤ ·) 0 (rs.map encode_prime.PrmPwr.prm_idx)) :
    encode_prime.decode_factors
        (SmallIntEncoding.bits (rs.length - 1) ++ exps_concat rs ++ deltas_concat 0 rs)
      = some (pp_expand rs) := by
  have hlpos : 1 ≤ rs.length := List.length_pos_of_ne_nil hne
  have h1 : SmallIntEncoding.read_uint32
      (SmallIntEncoding.bits (rs.length - 1) ++ exps_concat rs ++ deltas_concat 0 rs) 0
      = some (rs.length - 1, (SmallIntEncoding.bits (rs.length - 1)).length) := by
    have h := small_read_bits [] (exps_concat rs ++ deltas_concat 0 rs) (rs.length - 1)
      (by omega)
    simpa [List.append_assoc] using h
  have h2 : encode_prime.read_exps
      (SmallIntEncoding.bits (rs.length - 1) ++ exps_concat rs ++ deltas_concat 0 rs)
      (SmallIntEncoding.bits (rs.length - 1)).length (rs.length - 1 + 1)
      = some (rs.map encode_prime.PrmPwr.exp,
          (SmallIntEncoding.bits (rs.length - 1)).length + (exps_concat rs).length) := by
    have h := read_exps_concat rs (SmallIntEncoding.bits (rs.length - 1))
      (deltas_concat 0 rs) hexp
    rw [show rs.length - 1 + 1 = rs.length from by omega]
    exact h
  have h3 : encode_prime.read_idxs
      (SmallIntEncoding.bits (rs.length - 1) ++ exps_concat rs ++ deltas_concat 0 rs)
      ((SmallIntEncoding.bits (rs.length - 1)).length + (exps_concat rs).length) 0
      (rs.length - 1 + 1)
      = some (rs.map encode_prime.PrmPwr.prm_idx,
          (SmallIntEncoding.bits (rs.length - 1)).length + (exps_concat rs).length
            + (deltas_concat 0 rs).length) := by
    have h := read_idxs_concat rs (SmallIntEncoding.bits (rs.length - 1) ++ exps_concat rs)
      [] 0 (by norm_num [U32MOD]) hidxU hch
    rw [show rs.length - 1 + 1 = rs.length from by omega]
    simpa [List.append_assoc] using h
  rw [decode_factors_steps _ (rs.length - 1) _ _ _ _ _ h1 h2 h3, expand_map]

/-- All facts needed about the run list of a sequence satisfying the amended
round-trip preconditions. -/
theorem full_runs_facts (p0 : Nat) (rest : List Nat)
    (hpw : List.Pairwise (· ≤ ·) (p0 :: rest))
    (hU : ∀ x ∈ p0 :: rest, x < U32MOD)
    (hcnt : ∀ x ∈ p0 :: rest, List.count x (p0 :: rest) ≤ 32)
    (hcard : (p0 :: rest).toFinset.card ≤ 32) :
    ∃ rs, encode_prime.factors_to_int_as_prms (p0 :: rest) = some rs ∧
      (∀ r ∈ rs, 1 ≤ r.exp ∧ r.exp ≤ 32) ∧ rs ≠ [] ∧ rs.length ≤ 32 ∧
      (∀ r ∈ rs, r.prm_idx < U32MOD) ∧
      List.Chain (· ≤ ·) 0 (rs.map encode_prime.PrmPwr.prm_idx) ∧
      pp_expand rs = p0 :: rest := by
  have hch2 : List.Chain (· ≤ ·) p0 rest := by
    have h := List.chain'_iff_pairwise.mpr hpw
    exact h
  have hcnt2 : ∀ x, List.count x (p0 :: rest) ≤ 32 := by
    intro x
    by_cases hx : x ∈ p0 :: rest
    · exact hcnt x hx
    · rw [List.count_eq_zero_of_not_mem hx]
      omega
  rcases runs_facts p0 rest hch2 hcnt2 with
    ⟨rs, hrs, _, hexp, ⟨t, hmap, hcht⟩, hexpand, hrsne, hmem⟩
  have hnodup : (p0 :: t).Nodup := by
    have hpw2 : List.Pairwise (· < ·) (p0 :: t) := List.chain_iff_pairwise.mp hcht
    exact hpw2.imp (fun h => Nat.ne_of_lt h)
  have hsubset : ∀ x ∈ p0 :: t, x ∈ p0 :: rest := by
    intro x hx
    rw [← hmap] at hx
    rcases List.mem_map.mp hx with ⟨r, hr, hxr⟩
    rcases hmem r hr with h1 | h2
    · rw [← hxr, h1]
      exact List.mem_cons_self p0 rest
    · rw [← hxr]
      exact List.mem_cons_of_mem p0 h2
  have hlen32 : rs.length ≤ 32 := by
    have h1 : (p0 :: t).length = rs.length := by
      rw [← hmap, List.length_map]
    have h2 : (p0 :: t).toFinset.card = (p0 :: t).length :=
      List.toFinset_card_of_nodup hnodup
    have h3 : (p0 :: t).toFinset ⊆ (p0 :: rest).toFinset := by
      intro x hx
      exact List.mem_toFinset.mpr (hsubset x (List.mem_toFinset.mp hx))
    have h4 := Finset.card_le_card h3
    omega
  have hidxU : ∀ r ∈ rs, r.prm_idx < U32MOD := by
    intro r hr
    rcases hmem r hr with h1 | h2
    · rw [h1]
      exact hU p0 (List.mem_cons_self p0 rest)
    · exact hU r.prm_idx (List.mem_cons_of_mem p0 h2)
  have hch0 : List.Chain (· ≤ ·) 0 (rs.map encode_prime.PrmPwr.prm_idx) := by
    rw [hmap]
    exact List.chain_cons.mpr ⟨Nat.zero_le p0, hcht.imp (fun _ _ h => le_of_lt h)⟩
  exact ⟨rs, hrs, hexp, hrsne, hlen32, hidxU, hch0, hexpand⟩

/-- C1 (amended): for every non-empty, non-decreasing sequence of `u32`
prime-table indices in which each index occurs at most 32 times and at most
32 distinct indices appear, `encode_factors` succeeds and `decode_factors` of
its output returns the original sequence.  (Without the two 32-bounds the
encoder instead hits the small-value codec's `assert!(v < 32)`: see the
counterexample.) -/
theorem encode_decode_factors_round_trip (v : List Nat) (hne : v ≠ [])
    (hpw : List.Pairwise (· ≤ ·) v)
    (hU : ∀ x ∈ v, x < U32MOD)
    (hcnt : ∀ x ∈ v, List.count x v ≤ 32)
    (hcard : v.toFinset.card ≤ 32) :
    ∃ bs, encode_prime.encode_factors v = some bs
      ∧ encode_prime.decode_factors bs = some v := by
  cases v with
  | nil => exact absurd rfl hne
  | cons p0 rest =>
    rcases full_runs_facts p0 rest hpw hU hcnt hcard with
      ⟨rs, hrs, hexp, hrsne, hlen32, hidxU, hch0, hexpand⟩
    refine ⟨_, encode_factors_eq p0 rest rs hrs hexp hrsne hlen32, ?_⟩
    rw [decode_factors_eq rs hexp hrsne hlen32 hidxU hch0, hexpand]

/-- C1 counterexample: the claim as stated is false.  The sequence of 33
copies of index 0 is non-empty and non-decreasing with every index below any
positive table length, yet `encode_factors` panics on it (the small-value
codec's `assert!(v_in < 32)` fails on the exponent field `33 - 1`), so
`decode_factors(encode_factors(s))` does not return `s`. -/
theorem encode_factors_33_run_panics :
    List.Pairwise (· ≤ ·) (List.replicate 33 (0 : Nat)) ∧
    (List.replicate 33 (0 : Nat)) ≠ [] ∧
    (∀ x ∈ List.replicate 33 (0 : Nat), x < U32MOD) ∧
    encode_prime.encode_factors (List.replicate 33 (0 : Nat)) = none :=
  ⟨by decide, by decide, by decide, by decide⟩

/-- C1 witness: the amended round trip at the concrete sequence
`[0, 1, 1, 4]`. -/
theorem encode_decode_factors_round_trip_witness :
    ∃ bs, encode_prime.encode_factors [0, 1, 1, 4] = some bs
      ∧ encode_prime.decode_factors bs = some [0, 1, 1, 4] :=
  encode_decode_factors_round_trip [0, 1, 1, 4] (by decide) (by decide) (by decide)
    (by decide) (by decide)

/-- A successful lookup in a truncated buffer succeeds in the full buffer. -/
theorem take_getElem_some (l : List Bool) (t i : Nat) (b : Bool)
    (h : (l.take t)[i]? = some b) : l[i]? = some b ∧ i < t := by
  have hlt : i < (l.take t).length := by
    by_contra hcon
    rw [List.getElem?_eq_none (by omega)] at h
    exact Option.noConfusion h
  rw [List.length_take] at hlt
  constructor
  · rw [← List.getElem?_take_of_lt (show i < t by omega)]
    exact h
  · omega

/-- A successful lookup implies the index is in range. -/
theorem getElem_some_lt (l : List Bool) (i : Nat) (b : Bool) (h : l[i]? = some b) :
    i < l.length := by
  by_contra hcon
  rw [List.getElem?_eq_none (by omega)] at h
  exact Option.noConfusion h

/-- A small-value read that succeeds on a truncated buffer succeeds on the
full buffer with the same result, and its final cursor stays within the
truncation. -/
theorem small_read_take (l : List Bool) (t c v c2 : Nat)
    (h : SmallIntEncoding.read_uint32 (l.take t) c = some (v, c2)) :
    SmallIntEncoding.read_uint32 l c = some (v, c2) ∧ c2 ≤ t := by
  unfold SmallIntEncoding.read_uint32 at h ⊢
  cases h0 : (l.take t)[c]? with
  | none => simp [h0] at h
  | some b0 =>
    cases h1 : (l.take t)[c + 1]? with
    | none => simp [h0, h1] at h
    | some c1 =>
      rw [h0, h1] at h
      rw [(take_getElem_some l t c b0 h0).1, (take_getElem_some l t (c + 1) c1 h1).1]
      cases c1 with
      | false =>
        simp only [Bool.false_eq_true, if_false, Option.some.injEq, Prod.mk.injEq] at h ⊢
        have hlt := (take_getElem_some l t (c + 1) false h1).2
        exact ⟨h, by omega⟩
      | true =>
        simp only [if_true] at h ⊢
        cases h2 : (l.take t)[c + 2]? with
        | none => simp [h2] at h
        | some b1 =>
          cases h3 : (l.take t)[c + 3]? with
          | none => simp [h2, h3] at h
          | some b2 =>
            cases h4 : (l.take t)[c + 4]? with
            | none => simp [h2, h3, h4] at h
            | some cc =>
              rw [h2, h3, h4] at h
              rw [(take_getElem_some l t (c + 2) b1 h2).1,
                (take_getElem_some l t (c + 3) b2 h3).1,
                (take_getElem_some l t (c + 4) cc h4).1]
              cases cc with
              | false =>
                simp only [Bool.false_eq_true, if_false, Option.some.injEq,
                  Prod.mk.injEq] at h ⊢
                have hlt := (take_getElem_some l t (c + 4) false h4).2
                exact ⟨h, by omega⟩
              | true =>
                simp only [if_true] at h ⊢
                cases h5 : (l.take t)[c + 5]? with
                | none => simp [h5] at h
                | some b3 =>
                  cases h6 : (l.take t)[c + 6]? with
                  | none => simp [h5, h6] at h
                  | some b4 =>
                    rw [h5, h6] at h
                    rw [(take_getElem_some l t (c + 5) b3 h5).1,
                      (take_getElem_some l t (c + 6) b4 h6).1]
                    simp only [Option.some.injEq, Prod.mk.injEq] at h ⊢
                    have hlt := (take_getElem_some l t (c + 6) b4 h6).2
                    exact ⟨h, by omega⟩

/-- A raw-bits read that succeeds on a truncated buffer succeeds on the full
buffer, and (when it reads at least one bit) ends within the truncation. -/
theorem read_bits_lsb_take (count : Nat) : ∀ (l : List Bool) (t c v c2 : Nat),
    U32Encoding.read_bits_lsb (l.take t) c count = some (v, c2) →
    U32Encoding.read_bits_lsb l c count = some (v, c2) ∧ (1 ≤ count → c2 ≤ t) := by
  induction count with
  | zero =>
    intro l t c v c2 h
    unfold U32Encoding.read_bits_lsb at h ⊢
    exact ⟨h, by omega⟩
  | succ k ih =>
    intro l t c v c2 h
    unfold U32Encoding.read_bits_lsb at h ⊢
    cases h0 : (l.take t)[c]? with
    | none => simp [h0] at h
    | some b =>
      rw [h0] at h
      rw [(take_getElem_some l t c b h0).1]
      cases hr : U32Encoding.read_bits_lsb (l.take t) (c + 1) k with
      | none => simp [hr] at h
      | some pr =>
        obtain ⟨v1, c1⟩ := pr
        rw [hr] at h
        rcases ih l t (c + 1) v1 c1 hr with ⟨hfull, hbound⟩
        rw [hfull]
        simp only [Option.some.injEq, Prod.mk.injEq] at h ⊢
        refine ⟨h, fun _ => ?_⟩
        rcases Nat.eq_zero_or_pos k with hk | hk
        · subst hk
          unfold U32Encoding.read_bits_lsb at hfull
          simp only [Option.some.injEq, Prod.mk.injEq] at hfull
          have hc0 := (take_getElem_some l t c b h0).2
          omega
        · have hb := hbound (by omega)
          omega

/-- A general-codec read that succeeds on a truncated buffer succeeds on the
full buffer with the same result, and its final cursor stays within the
truncation. -/
theorem u32_read_take (l : List Bool) (t c v c2 : Nat)
    (h : U32Encoding.read_uint32 (l.take t) c = some (v, c2)) :
    U32Encoding.read_uint32 l c = some (v, c2) ∧ c2 ≤ t := by
  unfold U32Encoding.read_uint32 at h ⊢
  cases h0 : (l.take t)[c]? with
  | none => simp [h0] at h
  | some b0 =>
    cases h1 : (l.take t)[c + 1]? with
    | none => simp [h0, h1] at h
    | some b1 =>
      cases h2 : (l.take t)[c + 2]? with
      | none => simp [h0, h1, h2] at h
      | some f =>
        rw [h0, h1, h2] at h
        rw [(take_getElem_some l t c b0 h0).1, (take_getElem_some l t (c + 1) b1 h1).1,
          (take_getElem_some l t (c + 2) f h2).1]
        cases f with
        | false =>
          simp only [Bool.false_eq_true, if_false] at h ⊢
          exact read_bits_lsb_take _ l t (c + 3) v c2 h |>.imp id (fun hb => hb (by omega))
        | true =>
          simp only [if_true] at h ⊢
          cases h3 : (l.take t)[c + 3]? with
          | none => simp [h3] at h
          | some b2 =>
            cases h4 : (l.take t)[c + 4]? with
            | none => simp [h3, h4] at h
            | some b3 =>
              cases h5 : (l.take t)[c + 5]? with
              | none => simp [h3, h4, h5] at h
              | some b4 =>
                rw [h3, h4, h5] at h
                rw [(take_getElem_some l t (c + 3) b2 h3).1,
                  (take_getElem_some l t (c + 4) b3 h4).1,
                  (take_getElem_some l t (c + 5) b4 h5).1]
                exact read_bits_lsb_take _ l t (c + 6) v c2 h |>.imp id
                  (fun hb => hb (by omega))

/-- The exponent loop fails when its first read fails. -/
theorem read_exps_none1 (bs : List Bool) (c count : Nat)
    (h : SmallIntEncoding.read_uint32 bs c = none) :
    encode_prime.read_exps bs c (count + 1) = none := by
  unfold encode_prime.read_exps
  rw [h]

/-- The exponent loop fails when its recursive call fails. -/
theorem read_exps_none2 (bs : List Bool) (c count e c1 : Nat)
    (h0 : SmallIntEncoding.read_uint32 bs c = some (e, c1))
    (h1 : encode_prime.read_exps bs c1 count = none) :
    encode_prime.read_exps bs c (count + 1) = none := by
  unfold encode_prime.read_exps
  rw [h0]
  show (match encode_prime.read_exps bs c1 count with
    | none => none
    | some (rest2, c3) => some ((e + 1) :: rest2, c3)) = none
  rw [h1]

/-- The index loop fails when its first read fails. -/
theorem read_idxs_none1 (bs : List Bool) (c prev count : Nat)
    (h : U32Encoding.read_uint32 bs c = none) :
    encode_prime.read_idxs bs c prev (count + 1) = none := by
  unfold encode_prime.read_idxs
  rw [h]

/-- The index loop fails when its recursive call fails. -/
theorem read_idxs_none2 (bs : List Bool) (c prev count d c1 : Nat)
    (h0 : U32Encoding.read_uint32 bs c = some (d, c1))
    (h1 : encode_prime.read_idxs bs c1 (u32_add d prev) count = none) :
    encode_prime.read_idxs bs c prev (count + 1) = none := by
  unfold encode_prime.read_idxs
  rw [h0]
  show (match encode_prime.read_idxs bs c1 (u32_add d prev) count with
    | none => none
    | some (rest2, c3) => some (u32_add d prev :: rest2, c3)) = none
  rw [h1]

/-- An exponent-loop read that succeeds on a truncated buffer succeeds on the
full buffer, and (for at least one field) ends within the truncation. -/
theorem read_exps_take (count : Nat) : ∀ (l : List Bool) (t c : Nat) (es : List Nat) (c2 : Nat),
    encode_prime.read_exps (l.take t) c count = some (es, c2) →
    encode_prime.read_exps l c count = some (es, c2) ∧ (1 ≤ count → c2 ≤ t) := by
  induction count with
  | zero =>
    intro l t c es c2 h
    unfold encode_prime.read_exps at h ⊢
    exact ⟨h, by omega⟩
  | succ k ih =>
    intro l t c es c2 h
    cases h0 : SmallIntEncoding.read_uint32 (l.take t) c with
    | none =>
      rw [read_exps_none1 (l.take t) c k h0] at h
      exact Option.noConfusion h
    | some pr =>
      obtain ⟨e, c1⟩ := pr
      rcases small_read_take l t c e c1 h0 with ⟨hfull, hb1⟩
      cases hr : encode_prime.read_exps (l.take t) c1 k with
      | none =>
        rw [read_exps_none2 (l.take t) c k e c1 h0 hr] at h
        exact Option.noConfusion h
      | some pr2 =>
        obtain ⟨es1, c3⟩ := pr2
        rw [read_exps_step (l.take t) c k e c1 es1 c3 h0 hr] at h
        rcases ih l t c1 es1 c3 hr with ⟨hfull2, hb2⟩
        rw [read_exps_step l c k e c1 es1 c3 hfull hfull2]
        simp only [Option.some.injEq, Prod.mk.injEq] at h
        refine ⟨by rw [h.1, h.2], fun _ => ?_⟩
        rcases Nat.eq_zero_or_pos k with hk | hk
        · subst hk
          unfold encode_prime.read_exps at hfull2
          simp only [Option.some.injEq, Prod.mk.injEq] at hfull2
          omega
        · have hb3 := hb2 (by omega)
          omega

/-- An index-loop read that succeeds on a truncated buffer succeeds on the
full buffer, and (for at least one field) ends within the truncation. -/
theorem read_idxs_take (count : Nat) : ∀ (l : List Bool) (t c prev : Nat) (is : List Nat)
    (c2 : Nat),
    encode_prime.read_idxs (l.take t) c prev count = some (is, c2) →
    encode_prime.read_idxs l c prev count = some (is, c2) ∧ (1 ≤ count → c2 ≤ t) := by
  induction count with
  | zero =>
    intro l t c prev is c2 h
    unfold encode_prime.read_idxs at h ⊢
    exact ⟨h, by omega⟩
  | succ k ih =>
    intro l t c prev is c2 h
    cases h0 : U32Encoding.read_uint32 (l.take t) c with
    | none =>
      rw [read_idxs_none1 (l.take t) c prev k h0] at h
      exact Option.noConfusion h
    | some pr =>
      obtain ⟨d, c1⟩ := pr
      rcases u32_read_take l t c d c1 h0 with ⟨hfull, hb1⟩
      cases hr : encode_prime.read_idxs (l.take t) c1 (u32_add d prev) k with
      | none =>
        rw [read_idxs_none2 (l.take t) c prev k d c1 h0 hr] at h
        exact Option.noConfusion h
      | some pr2 =>
        obtain ⟨is1, c3⟩ := pr2
        rw [read_idxs_step (l.take t) c prev k d c1 is1 c3 (u32_add d prev) rfl h0 hr] at h
        rcases ih l t c1 (u32_add d prev) is1 c3 hr with ⟨hfull2, hb2⟩
        rw [read_idxs_step l c prev k d c1 is1 c3 (u32_add d prev) rfl hfull hfull2]
        simp only [Option.some.injEq, Prod.mk.injEq] at h
        refine ⟨by rw [h.1, h.2], fun _ => ?_⟩
        rcases Nat.eq_zero_or_pos k with hk | hk
        · subst hk
          unfold encode_prime.read_idxs at hfull2
          simp only [Option.some.injEq, Prod.mk.injEq] at hfull2
          omega
        · have hb3 := hb2 (by omega)
          omega

/-- `decode_factors` fails when the run-count read fails. -/
theorem decode_none1 (l : List Bool) (h : SmallIntEncoding.read_uint32 l 0 = none) :
    encode_prime.decode_factors l = none := by
  unfold encode_prime.decode_factors
  rw [h]

/-- `decode_factors` fails when the exponent loop fails. -/
theorem decode_none2 (l : List Bool) (l0 c1 : Nat)
    (h0 : SmallIntEncoding.read_uint32 l 0 = some (l0, c1))
    (h1 : encode_prime.read_exps l c1 (l0 + 1) = none) :
    encode_prime.decode_factors l = none := by
  unfold encode_prime.decode_factors
  rw [h0]
  show (match encode_prime.read_exps l c1 (l0 + 1) with
    | none => none
    | some (exps2, c4) =>
      match encode_prime.read_idxs l c4 0 (l0 + 1) with
      | none => none
      | some (idxs2, _) => some (encode_prime.expand exps2 idxs2)) = none
  rw [h1]

/-- `decode_factors` fails when the index loop fails. -/
theorem decode_none3 (l : List Bool) (l0 c1 : Nat) (exps : List Nat) (c2 : Nat)
    (h0 : SmallIntEncoding.read_uint32 l 0 = some (l0, c1))
    (h1 : encode_prime.read_exps l c1 (l0 + 1) = some (exps, c2))
    (h2 : encode_prime.read_idxs l c2 0 (l0 + 1) = none) :
    encode_prime.decode_factors l = none := by
  unfold encode_prime.decode_factors
  rw [h0]
  show (match encode_prime.read_exps l c1 (l0 + 1) with
    | none => none
    | some (exps2, c4) =>
      match encode_prime.read_idxs l c4 0 (l0 + 1) with
      | none => none
      | some (idxs2, _) => some (encode_prime.expand exps2 idxs2)) = none
  rw [h1]
  show (match encode_prime.read_idxs l c2 0 (l0 + 1) with
    | none => none
    | some (idxs2, _) => some (encode_prime.expand exps idxs2)) = none
  rw [h2]

/-- A successful decode performs its three reads successfully. -/
theorem decode_factors_inv (l : List Bool) (r : List Nat)
    (h : encode_prime.decode_factors l = some r) :
    ∃ l0 c1 exps c2 idxs c3,
      SmallIntEncoding.read_uint32 l 0 = some (l0, c1) ∧
      encode_prime.read_exps l c1 (l0 + 1) = some (exps, c2) ∧
      encode_prime.read_idxs l c2 0 (l0 + 1) = some (idxs, c3) := by
  cases h0 : SmallIntEncoding.read_uint32 l 0 with
  | none =>
    rw [decode_none1 l h0] at h
    exact Option.noConfusion h
  | some pr0 =>
    obtain ⟨l0, c1⟩ := pr0
    cases h1 : encode_prime.read_exps l c1 (l0 + 1) with
    | none =>
      rw [decode_none2 l l0 c1 h0 h1] at h
      exact Option.noConfusion h
    | some pr1 =>
      obtain ⟨exps, c2⟩ := pr1
      cases h2 : encode_prime.read_idxs l c2 0 (l0 + 1) with
      | none =>
        rw [decode_none3 l l0 c1 exps c2 h0 h1 h2] at h
        exact Option.noConfusion h
      | some pr2 =>
        obtain ⟨idxs, c3⟩ := pr2
        exact ⟨l0, c1, exps, c2, idxs, c3, rfl, h1, h2⟩

/-- The three reads the decoder performs succeed on the encoder's full output
with exactly these results and cursors; the final cursor is the whole length. -/
theorem encoded_reads (rs : List encode_prime.PrmPwr)
    (hexp : ∀ r ∈ rs, 1 ≤ r.exp ∧ r.exp ≤ 32)
    (hne : rs ≠ [])
    (hlen : rs.length ≤ 32)
    (hidxU : ∀ r ∈ rs, r.prm_idx < U32MOD)
    (hch : List.Chain (· ≤ ·) 0 (rs.map encode_prime.PrmPwr.prm_idx)) :
    SmallIntEncoding.read_uint32
        (SmallIntEncoding.bits (rs.length - 1) ++ exps_concat rs ++ deltas_concat 0 rs) 0
      = some (rs.length - 1, (SmallIntEncoding.bits (rs.length - 1)).length) ∧
    encode_prime.read_exps
        (SmallIntEncoding.bits (rs.length - 1) ++ exps_concat rs ++ deltas_concat 0 rs)
        (SmallIntEncoding.bits (rs.length - 1)).length rs.length
      = some (rs.map encode_prime.PrmPwr.exp,
          (SmallIntEncoding.bits (rs.length - 1)).length + (exps_concat rs).length) ∧
    encode_prime.read_idxs
        (SmallIntEncoding.bits (rs.length - 1) ++ exps_concat rs ++ deltas_concat 0 rs)
        ((SmallIntEncoding.bits (rs.length - 1)).length + (exps_concat rs).length) 0
        rs.length
      = some (rs.map encode_prime.PrmPwr.prm_idx,
          (SmallIntEncoding.bits (rs.length - 1)).length + (exps_concat rs).length
            + (deltas_concat 0 rs).length) := by
  have hlpos : 1 ≤ rs.length := List.length_pos_of_ne_nil hne
  refine ⟨?_, ?_, ?_⟩
  · have h := small_read_bits [] (exps_concat rs ++ deltas_concat 0 rs) (rs.length - 1)
      (by omega)
    simpa [List.append_assoc] using h
  · exact read_exps_concat rs (SmallIntEncoding.bits (rs.length - 1))
      (deltas_concat 0 rs) hexp
  · have h := read_idxs_concat rs (SmallIntEncoding.bits (rs.length - 1) ++ exps_concat rs)
      [] 0 (by norm_num [U32MOD]) hidxU hch
    simpa [List.append_assoc] using h

/-- C4 (amended): for every strict prefix (truncation) of a valid
`encode_factors` output, `decode_factors` aborts through the bounds assertion
in `DynBitString::get` (modelled as `none`), a controlled panic rather than an
out-of-bounds bit access; since `decode_factors` returns a plain `Vec<u32>`
with no error channel, no reportable decode error is produced. -/
theorem decode_factors_truncation (v : List Nat) (bs : List Bool) (t : Nat)
    (hne : v ≠ [])
    (hpw : List.Pairwise (· ≤ ·) v)
    (hU : ∀ x ∈ v, x < U32MOD)
    (hcnt : ∀ x ∈ v, List.count x v ≤ 32)
    (hcard : v.toFinset.card ≤ 32)
    (hbs : encode_prime.encode_factors v = some bs)
    (ht : t < bs.length) :
    encode_prime.decode_factors (bs.take t) = none := by
  cases v with
  | nil => exact absurd rfl hne
  | cons p0 rest =>
    rcases full_runs_facts p0 rest hpw hU hcnt hcard with
      ⟨rs, hrs, hexp, hrsne, hlen32, hidxU, hch0, _⟩
    have hlpos : 1 ≤ rs.length := List.length_pos_of_ne_nil hrsne
    have henc := encode_factors_eq p0 rest rs hrs hexp hrsne hlen32
    rw [hbs] at henc
    have hbseq : bs = SmallIntEncoding.bits (rs.length - 1) ++ exps_concat rs
        ++ deltas_concat 0 rs := Option.some.inj henc
    rcases encoded_reads rs hexp hrsne hlen32 hidxU hch0 with ⟨e1, e2, e3⟩
    cases hdec : encode_prime.decode_factors (bs.take t) with
    | none => rfl
    | some r =>
      exfalso
      rcases decode_factors_inv _ _ hdec with ⟨l0, c1, exps, c2, idxs, c3, h1, h2, h3⟩
      obtain ⟨h1f, _⟩ := small_read_take bs t 0 l0 c1 h1
      rw [hbseq] at h1f
      have hpq1 : (l0, c1)
          = (rs.length - 1, (SmallIntEncoding.bits (rs.length - 1)).length) :=
        Option.some.inj (h1f.symm.trans e1)
      injection hpq1 with hl0 hc1
      subst hl0
      subst hc1
      rw [show rs.length - 1 + 1 = rs.length from by omega] at h2 h3
      obtain ⟨h2f, _⟩ := read_exps_take rs.length bs t _ exps c2 h2
      rw [hbseq] at h2f
      have hpq2 : (exps, c2)
          = (rs.map encode_prime.PrmPwr.exp,
              (SmallIntEncoding.bits (rs.length - 1)).length + (exps_concat rs).length) :=
        Option.some.inj (h2f.symm.trans e2)
      injection hpq2 with hexps hc2
      subst hc2
      obtain ⟨h3f, hc3t⟩ := read_idxs_take rs.length bs t _ 0 idxs c3 h3
      rw [hbseq] at h3f
      have hpq3 : (idxs, c3)
          = (rs.map encode_prime.PrmPwr.prm_idx,
              (SmallIntEncoding.bits (rs.length - 1)).length + (exps_concat rs).length
                + (deltas_concat 0 rs).length) :=
        Option.some.inj (h3f.symm.trans e3)
      injection hpq3 with hidxs hc3
      have hlen_bs : bs.length = (SmallIntEncoding.bits (rs.length - 1)).length
          + (exps_concat rs).length + (deltas_concat 0 rs).length := by
        rw [hbseq]
        simp [List.length_append]
        omega
      have hle := hc3t (by omega)
      omega

/-- C4 counterexample: the claim as stated is false.  Dropping the last bit
from the valid encoding of `[0, 1, 2]` makes `decode_factors` hit the
`assert!(ndx < self.len_bits())` in `DynBitString::get` — a panic (modelled
`none`), not a reportable decode error; indeed `decode_factors` returns
`Vec<u32>` with no error channel at all. -/
theorem decode_factors_truncation_counterexample :
    (encode_prime.encode_factors [0, 1, 2]).map
        (fun bs => encode_prime.decode_factors (bs.take (bs.length - 1)))
      = some none := by decide

/-- C4 witness: the amended theorem applied to the encoding of `[0, 1, 2]`
truncated to its first 5 bits. -/
theorem decode_factors_truncation_witness :
    encode_prime.decode_factors
        (((encode_prime.encode_factors [0, 1, 2]).getD []).take 5) = none :=
  decode_factors_truncation [0, 1, 2] ((encode_prime.encode_factors [0, 1, 2]).getD []) 5
    (by decide) (by decide) (by decide) (by decide) (by decide) (by rfl) (by decide)

/-- The digit-by-digit square root is the floor of the square root on its
fuel's domain. -/
theorem isqrt_fuel_spec : ∀ f n, n < 4 ^ f →
    isqrt_fuel f n * isqrt_fuel f n ≤ n
      ∧ n < (isqrt_fuel f n + 1) * (isqrt_fuel f n + 1) := by
  intro f
  induction f with
  | zero =>
    intro n h
    simp only [pow_zero, Nat.lt_one_iff] at h
    subst h
    simp [isqrt_fuel]
  | succ k ih =>
    intro n h
    by_cases h0 : n = 0
    · subst h0
      simp [isqrt_fuel]
    · have hq : n / 4 < 4 ^ k := by
        rw [pow_succ] at h
        omega
      obtain ⟨h1, h2⟩ := ih (n / 4) hq
      have hstep : isqrt_fuel (k + 1) n
          = if (2 * isqrt_fuel k (n / 4) + 1) * (2 * isqrt_fuel k (n / 4) + 1) ≤ n
            then 2 * isqrt_fuel k (n / 4) + 1 else 2 * isqrt_fuel k (n / 4) := by
        simp only [isqrt_fuel, if_neg h0]
      have hA : 4 * (isqrt_fuel k (n / 4) * isqrt_fuel k (n / 4)) ≤ n := by omega
      have hB : n < 4 * ((isqrt_fuel k (n / 4) + 1) * (isqrt_fuel k (n / 4) + 1)) := by omega
      rw [hstep]
      split_ifs with hc
      · exact ⟨hc, by nlinarith⟩
      · exact ⟨by nlinarith, by omega⟩

/-- Only the first branch of the final checks yields
`NotEnoughPrimesToFactorIt`. -/
theorem factor_final_ne (n num last : Nat) (prms factors : List Nat)
    (hlast : prms.getLast? = some last)
    (h : primes.factor_final n num prms factors
        = some (.error .NotEnoughPrimesToFactorIt)) :
    last < f64_sqrt_u32 n := by
  unfold primes.factor_final at h
  simp only [hlast] at h
  by_cases hA : f64_sqrt_u32 n > last
  · exact hA
  · rw [if_neg hA] at h
    split_ifs at h <;> simp at h

/-- One step of `factor`'s main loop. -/
theorem factor_loop_step (n : Nat) (prms : List Nat) (fuel num : Nat) (factors : List Nat) :
    primes.factor_loop n prms (fuel + 1) num factors
      = if num ≤ 1 then primes.factor_final n num prms factors
        else match primes.index_in_prime_list num prms with
          | none => none
          | some (.ok i) => some (.ok (factors ++ [i]))
          | some (.error _) =>
            match primes.factor_scan n num prms 0 with
            | none => none
            | some none => primes.factor_final n num prms factors
            | some (some i) =>
              match prms[i]? with
              | none => none
              | some p => primes.factor_loop n prms fuel (num / p) (factors ++ [i]) := rfl

/-- Whatever the fuel, a `NotEnoughPrimesToFactorIt` result of the main loop
comes from the final checks' square-root comparison. -/
theorem factor_loop_ne (n last : Nat) (prms : List Nat) (hlast : prms.getLast? = some last) :
    ∀ (fuel num : Nat) (factors : List Nat),
      primes.factor_loop n prms fuel num factors
          = some (.error .NotEnoughPrimesToFactorIt) →
      last < f64_sqrt_u32 n := by
  intro fuel
  induction fuel with
  | zero =>
    intro num factors h
    exact absurd h (by simp [primes.factor_loop])
  | succ k ih =>
    intro num factors h
    rw [factor_loop_step] at h
    by_cases hnum : num ≤ 1
    · rw [if_pos hnum] at h
      exact factor_final_ne n num last prms factors hlast h
    · rw [if_neg hnum] at h
      cases hix : primes.index_in_prime_list num prms with
      | none => simp [hix] at h
      | some ex =>
        cases ex with
        | ok i => simp [hix] at h
        | error e =>
          simp only [hix] at h
          cases hsc : primes.factor_scan n num prms 0 with
          | none => simp [hsc] at h
          | some oi =>
            cases oi with
            | none =>
              simp only [hsc] at h
              exact factor_final_ne n num last prms factors hlast h
            | some i =>
              simp only [hsc] at h
              cases hp : prms[i]? with
              | none => simp [hp] at h
              | some p =>
                simp only [hp] at h
                exact ih (num / p) (factors ++ [i]) h

/-- When no table entry divides `num` (and no entry is zero), the inner scan
finds nothing. -/
theorem factor_scan_no_div (n num : Nat) : ∀ (l : List Nat) (i : Nat),
    (∀ p ∈ l, p ≠ 0) → (∀ p ∈ l, num % p ≠ 0) →
    primes.factor_scan n num l i = some none := by
  intro l
  induction l with
  | nil => intro i _ _; rfl
  | cons p rest ih =>
    intro i h0 hd
    have hp0 : p ≠ 0 := h0 p (List.mem_cons_self p rest)
    have hpd : num % p ≠ 0 := hd p (List.mem_cons_self p rest)
    show (if p = 0 then none
        else if num % p = 0 then some (some i)
        else if p * p % U32MOD > n then some none
        else primes.factor_scan n num rest (i + 1)) = some none
    rw [if_neg hp0, if_neg hpd]
    split_ifs with hc
    · rfl
    · exact ih (i + 1) (fun q hq => h0 q (List.mem_cons_of_mem p hq))
        (fun q hq => hd q (List.mem_cons_of_mem p hq))

/-- C5 (amended): for `2 ≤ n < 2^32` and a strictly increasing table of primes
with largest entry `last`: (a) any result of `factor` equals
`Err(NotEnoughPrimesToFactorIt)` exactly when `last * last < n` (i.e. the
largest prime is below `√n`); (b) when the table covers `√n`, `n` is in the
table's range but not in the table, and no table prime divides `n`, `factor`
returns `Err(NIsBigPrime)`.  (The claim's third conjunct — that
`Err(AlgorithmFailed)` is unreachable — is false: see the counterexample,
where the `u32` product `p * p` overflows and the scan stops early.) -/
theorem factor_error_conditions (n last : Nat) (prms : List Nat)
    (hn : 2 ≤ n) (hnU : n < U32MOD)
    (hprime : ∀ p ∈ prms, Nat.Prime p)
    (hinc : List.Pairwise (· < ·) prms)
    (hlast : prms.getLast? = some last) :
    (∀ r, primes.factor n prms = some r →
        (r = .error .NotEnoughPrimesToFactorIt ↔ last * last < n)) ∧
    (¬ last * last < n → n ∉ prms → (∀ p ∈ prms, ¬ p ∣ n) →
        primes.factor n prms = some (.error .NIsBigPrime)) := by
  have hne : prms ≠ [] := by
    intro he
    rw [he] at hlast
    exact Option.noConfusion hlast
  have h417 : n < 4 ^ 17 := by
    have h4 : (4 : Nat) ^ 17 = 17179869184 := by norm_num
    have hU : U32MOD = 4294967296 := rfl
    omega
  have hs := (isqrt_fuel_spec 17 n h417).1
  constructor
  · intro r hr
    by_cases hlt : last * last < n
    · simp only [primes.factor, hlast, if_pos hlt] at hr
      exact ⟨fun _ => hlt, fun _ => (Option.some.inj hr).symm⟩
    · simp only [primes.factor, hlast, if_neg hlt] at hr
      constructor
      · intro hre
        subst hre
        have hgt := factor_loop_ne n last prms hlast _ _ _ hr
        exfalso
        apply hlt
        have hmul : (last + 1) * (last + 1) ≤ f64_sqrt_u32 n * f64_sqrt_u32 n :=
          Nat.mul_le_mul hgt hgt
        have hlt1 : last * last < (last + 1) * (last + 1) := by nlinarith
        exact lt_of_lt_of_le hlt1 (le_trans hmul hs)
      · intro hlt2
        exact absurd hlt2 hlt
  · intro hnlt hnmem hnd
    have hie : prms.isEmpty = false := by
      cases prms with
      | nil => exact absurd rfl hne
      | cons a l => rfl
    have hix : primes.index_in_prime_list n prms = some (.error .NotInList) := by
      unfold primes.index_in_prime_list
      rw [hie]
      simp [hnmem]
    have hsc : primes.factor_scan n n prms 0 = some none :=
      factor_scan_no_div n n prms 0
        (fun p hp => (hprime p hp).ne_zero)
        (fun p hp => by
          intro hmod
          exact hnd p hp (Nat.dvd_of_mod_eq_zero hmod))
    have hsl : last ≤ f64_sqrt_u32 n ∨ f64_sqrt_u32 n ≤ last := le_total _ _
    have hfs : ¬ f64_sqrt_u32 n > last := by
      intro hgt
      apply hnlt
      have hmul : (last + 1) * (last + 1) ≤ f64_sqrt_u32 n * f64_sqrt_u32 n :=
        Nat.mul_le_mul hgt hgt
      have hlt1 : last * last < (last + 1) * (last + 1) := by nlinarith
      exact lt_of_lt_of_le hlt1 (le_trans hmul hs)
    simp only [primes.factor, hlast, if_neg hnlt]
    rw [show bit_length_fuel 34 n + 2 = (bit_length_fuel 34 n + 1) + 1 from rfl,
      factor_loop_step, if_neg (by omega : ¬ n ≤ 1)]
    simp only [hix, hsc]
    unfold primes.factor_final
    simp only [hlast, if_neg hfs]
    rfl

/-- C5 counterexample: `AlgorithmFailed` is reachable.  For `n = 131078 =
2 · 65539` with the prime table `[2, 65537]` (which covers `√n`), the inner
scan's `u32` product `65537 * 65537` wraps to `131073 < n`, so the
`p * p > n` cutoff never fires; the scan exhausts the table without
certifying the cofactor `65539`, and `factor` falls through to the
`AlgorithmFailed` branch. -/
theorem factor_returns_algorithm_failed :
    List.Pairwise (· < ·) [2, 65537]
      ∧ Nat.Prime 2 ∧ Nat.Prime 65537
      ∧ 2 ≤ 131078 ∧ ¬ 65537 * 65537 < 131078
      ∧ primes.factor 131078 [2, 65537] = some (.error .AlgorithmFailed) :=
  ⟨by decide, by norm_num, by norm_num, by norm_num, by norm_num, by decide⟩

/-- C5 witness: the amended theorem at `n = 7`, table `[2, 3]`: the table
covers `√7`, `7` is not in it and is divided by no entry, so `factor` reports
`NIsBigPrime`. -/
theorem factor_error_conditions_witness :
    primes.factor 7 [2, 3] = some (.error .NIsBigPrime) :=
  (factor_error_conditions 7 3 [2, 3] (by norm_num) (by norm_num [U32MOD])
      (by intro p hp; fin_cases hp <;> norm_num) (by decide) (by decide)).2
    (by norm_num) (by decide) (by decide)

/-- Only the last branch of the final checks yields a success, returning the
accumulated factors, and only when the remainder is down to 1. -/
theorem factor_final_ok (n num : Nat) (prms factors r : List Nat)
    (h : primes.factor_final n num prms factors = some (.ok r)) :
    r = factors ∧ num ≤ 1 := by
  unfold primes.factor_final at h
  cases hl : prms.getLast? with
  | none =>
    rw [hl] at h
    exact absurd h (by simp)
  | some last =>
    simp only [hl] at h
    split_ifs at h with h1 h2 h3
    · simp at h
    · simp at h
    · simp at h
    · exact ⟨(Except.ok.inj (Option.some.inj h)).symm, by omega⟩

/-- A successful table lookup is membership, returning the position. -/
theorem index_ok (k : Nat) (prms : List Nat) (i : Nat)
    (h : primes.index_in_prime_list k prms = some (.ok i)) :
    k ∈ prms ∧ i = prms.indexOf k := by
  unfold primes.index_in_prime_list at h
  by_cases h1 : prms.isEmpty
  · rw [if_pos h1] at h
    exact absurd h (by simp)
  · rw [if_neg h1] at h
    by_cases h2 : k ∈ prms
    · rw [if_pos h2] at h
      exact ⟨h2, (Except.ok.inj (Option.some.inj h)).symm⟩
    · rw [if_neg h2] at h
      simp at h

/-- When the inner scan reports a hit, the entry at that position divides
`num` and no earlier entry does. -/
theorem factor_scan_found (n num : Nat) : ∀ (l : List Nat) (i0 i : Nat),
    primes.factor_scan n num l i0 = some (some i) →
    i0 ≤ i ∧ ∃ p, l[i - i0]? = some p ∧ num % p = 0 ∧
      ∀ d < i - i0, ∀ q, l[d]? = some q → num % q ≠ 0 := by
  intro l
  induction l with
  | nil =>
    intro i0 i h
    exact absurd h (by simp [primes.factor_scan])
  | cons p rest ih =>
    intro i0 i h
    have hstep : primes.factor_scan n num (p :: rest) i0
        = if p = 0 then none
          else if num % p = 0 then some (some i0)
          else if p * p % U32MOD > n then some none
          else primes.factor_scan n num rest (i0 + 1) := rfl
    rw [hstep] at h
    by_cases h0 : p = 0
    · rw [if_pos h0] at h
      exact absurd h (by simp)
    rw [if_neg h0] at h
    by_cases hd : num % p = 0
    · rw [if_pos hd] at h
      have hi : i0 = i := Option.some.inj (Option.some.inj h)
      subst hi
      refine ⟨le_refl _, p, by simp, hd, ?_⟩
      intro d hdlt
      exact absurd hdlt (by omega)
    rw [if_neg hd] at h
    by_cases hb : p * p % U32MOD > n
    · rw [if_pos hb] at h
      exact absurd h (by simp)
    rw [if_neg hb] at h
    obtain ⟨hle, q0, hq0, hq0m, hmin⟩ := ih (i0 + 1) i h
    refine ⟨by omega, q0, ?_, hq0m, ?_⟩
    · have hsub : i - i0 = (i - (i0 + 1)) + 1 := by omega
      rw [hsub]
      simpa using hq0
    · intro d hdlt q hq
      cases d with
      | zero =>
        have hpq : p = q := by simpa using hq
        rw [← hpq]
        exact hd
      | succ e =>
        have hq' : rest[e]? = some q := by simpa using hq
        exact hmin e (by omega) q hq'

/-- Appending one index to a successful prime-index expansion appends the
entry at that index. -/
theorem indices_snoc : ∀ (xs prms fs : List Nat) (i p : Nat),
    primes.indices_to_prime_factors xs prms = some fs →
    prms[i]? = some p →
    primes.indices_to_prime_factors (xs ++ [i]) prms = some (fs ++ [p]) := by
  intro xs
  induction xs with
  | nil =>
    intro prms fs i p h hp
    have hfs : fs = [] := by
      simpa [primes.indices_to_prime_factors] using h.symm
    subst hfs
    simp [primes.indices_to_prime_factors, hp]
  | cons x xt ih =>
    intro prms fs i p h hp
    cases hx : prms[x]? with
    | none => simp [primes.indices_to_prime_factors, hx] at h
    | some q =>
      cases hrec : primes.indices_to_prime_factors xt prms with
      | none => simp [primes.indices_to_prime_factors, hx, hrec] at h
      | some f =>
        have hfs : fs = q :: f := by
          simpa [primes.indices_to_prime_factors, hx, hrec] using h.symm
        subst hfs
        have := ih prms f i p hrec hp
        simp [primes.indices_to_prime_factors, hx, this]

/-- The main-loop invariant of `factor`: whenever the loop succeeds from a
state whose accumulated indices expand to a prime list of product `n / num`,
are non-decreasing and bounded, and are at or below every table position
whose entry still divides `num`, the final index list expands to a prime list
of product exactly `n`, is non-decreasing and bounded. -/
theorem factor_loop_ok (n : Nat) (prms : List Nat)
    (hprime : ∀ p ∈ prms, Nat.Prime p) :
    ∀ (fuel num : Nat) (factors ixs fs : List Nat),
      primes.factor_loop n prms fuel num factors = some (.ok ixs) →
      1 ≤ num →
      primes.indices_to_prime_factors factors prms = some fs →
      fs.prod * num = n →
      List.Pairwise (· ≤ ·) factors →
      (∀ a ∈ factors, a < prms.length) →
      (∀ a ∈ factors, ∀ j q, prms[j]? = some q → q ∣ num → a ≤ j) →
      ∃ gs, primes.indices_to_prime_factors ixs prms = some gs ∧ gs.prod = n ∧
        List.Pairwise (· ≤ ·) ixs ∧ ∀ a ∈ ixs, a < prms.length := by
  intro fuel
  induction fuel with
  | zero =>
    intro num factors ixs fs h
    exact absurd h (by simp [primes.factor_loop])
  | succ k ih =>
    intro num factors ixs fs h h1 hfs hprod hpw hbound hI3
    rw [factor_loop_step] at h
    by_cases hnum : num ≤ 1
    · rw [if_pos hnum] at h
      obtain ⟨hr, _⟩ := factor_final_ok n num prms factors ixs h
      subst hr
      have hnum1 : num = 1 := by omega
      rw [hnum1, mul_one] at hprod
      exact ⟨fs, hfs, hprod, hpw, hbound⟩
    · rw [if_neg hnum] at h
      cases hix : primes.index_in_prime_list num prms with
      | none => simp [hix] at h
      | some ex =>
        cases ex with
        | ok i =>
          simp only [hix] at h
          have hixs : factors ++ [i] = ixs := Except.ok.inj (Option.some.inj h)
          obtain ⟨hmem, hidx⟩ := index_ok num prms i hix
          have hilt : prms.indexOf num < prms.length := List.indexOf_lt_length.mpr hmem
          have hgetI : prms[i]? = some num := by
            rw [hidx, List.getElem?_eq_getElem hilt, List.getElem_indexOf hilt]
          have hle_i : ∀ a ∈ factors, a ≤ i := fun a ha =>
            hI3 a ha i num hgetI (dvd_refl num)
          subst hixs
          refine ⟨fs ++ [num], indices_snoc factors prms fs i num hfs hgetI, ?_, ?_, ?_⟩
          · rw [List.prod_append, List.prod_singleton]
            exact hprod
          · refine List.pairwise_append.mpr ⟨hpw, List.pairwise_singleton _ _, ?_⟩
            intro a ha b hb
            have hbi : b = i := by simpa using hb
            rw [hbi]
            exact hle_i a ha
          · intro a ha
            rcases List.mem_append.mp ha with hin | hone
            · exact hbound a hin
            · have hai : a = i := by simpa using hone
              rw [hai, hidx]
              exact hilt
        | error e =>
          simp only [hix] at h
          cases hsc : primes.factor_scan n num prms 0 with
          | none => simp [hsc] at h
          | some oi =>
            cases oi with
            | none =>
              simp only [hsc] at h
              obtain ⟨_, hle⟩ := factor_final_ok n num prms factors ixs h
              omega
            | some i =>
              simp only [hsc] at h
              cases hp : prms[i]? with
              | none => simp [hp] at h
              | some p =>
                simp only [hp] at h
                obtain ⟨_, p0, hp0, hmod, hmin⟩ := factor_scan_found n num prms 0 i hsc
                rw [Nat.sub_zero] at hp0
                have hpp : p0 = p := Option.some.inj (hp0.symm.trans hp)
                rw [hpp] at hmod
                have hmin0 : ∀ d < i, ∀ q, prms[d]? = some q → num % q ≠ 0 := by
                  intro d hd
                  exact hmin d (by omega)
                have hdvd : p ∣ num := Nat.dvd_of_mod_eq_zero hmod
                have hpmem : p ∈ prms := by
                  obtain ⟨hlt, he⟩ := List.getElem?_eq_some.mp hp
                  exact he ▸ List.getElem_mem hlt
                have hp2 : 2 ≤ p := (hprime p hpmem).two_le
                have hple : p ≤ num := Nat.le_of_dvd (by omega) hdvd
                have hnum' : 1 ≤ num / p := (Nat.one_le_div_iff (by omega)).mpr hple
                obtain ⟨hilt, _⟩ := List.getElem?_eq_some.mp hp
                have hfs' := indices_snoc factors prms fs i p hfs hp
                have hprod' : (fs ++ [p]).prod * (num / p) = n := by
                  rw [List.prod_append, List.prod_singleton, mul_assoc,
                    Nat.mul_div_cancel' hdvd]
                  exact hprod
                have hle_i : ∀ a ∈ factors, a ≤ i := fun a ha =>
                  hI3 a ha i p hp hdvd
                have hpw' : List.Pairwise (· ≤ ·) (factors ++ [i]) := by
                  refine List.pairwise_append.mpr ⟨hpw, List.pairwise_singleton _ _, ?_⟩
                  intro a ha b hb
                  have hbi : b = i := by simpa using hb
                  rw [hbi]
                  exact hle_i a ha
                have hbound' : ∀ a ∈ factors ++ [i], a < prms.length := by
                  intro a ha
                  rcases List.mem_append.mp ha with hin | hone
                  · exact hbound a hin
                  · have hai : a = i := by simpa using hone
                    rw [hai]
                    exact hilt
                have hdd : num / p ∣ num := ⟨p, (Nat.div_mul_cancel hdvd).symm⟩
                have hI3' : ∀ a ∈ factors ++ [i], ∀ j q, prms[j]? = some q →
                    q ∣ num / p → a ≤ j := by
                  intro a ha j q hq hqd
                  have hq' : q ∣ num := hqd.trans hdd
                  rcases List.mem_append.mp ha with hin | hone
                  · exact hI3 a hin j q hq hq'
                  · have hai : a = i := by simpa using hone
                    rw [hai]
                    by_contra hji
                    have hjlt : j < i := by omega
                    have hq0 : q ≠ 0 := by
                      intro hq0
                      rw [hq0] at hq'
                      have := Nat.eq_zero_of_zero_dvd hq'
                      omega
                    have hqm : num % q = 0 := by
                      obtain ⟨c, hc⟩ := hq'
                      rw [hc]
                      exact Nat.mul_mod_right q c
                    exact hmin0 j hjlt q hq hqm
                exact ih (num / p) (factors ++ [i]) ixs (fs ++ [p]) h hnum' hfs' hprod'
                  hpw' hbound' hI3'

/-- C2 (amended): partial correctness of `factor` — whenever
`factor(n, table)` succeeds on a strictly increasing table of primes with
`2 ≤ n < 2^32`, the returned index sequence expands through the table to a
prime list whose product is exactly `n`, is non-decreasing, and stays within
the table.  (The claim's premise that a table covering `√N` suffices for
success is false: see the counterexample, where `factor` rejects `n = 97`
with a table covering `√100` because its early guard compares the largest
prime against `√n`, not `√N`'s prime coverage.) -/
theorem factor_partial_correct (n : Nat) (prms ixs : List Nat)
    (hprime : ∀ p ∈ prms, Nat.Prime p)
    (hsorted : List.Pairwise (· < ·) prms)
    (hn : 2 ≤ n)
    (h : primes.factor n prms = some (.ok ixs)) :
    ∃ fs, primes.indices_to_prime_factors ixs prms = some fs ∧ fs.prod = n ∧
      List.Pairwise (· ≤ ·) ixs ∧ ∀ a ∈ ixs, a < prms.length := by
  unfold primes.factor at h
  cases hl : prms.getLast? with
  | none =>
    rw [hl] at h
    exact absurd h (by simp)
  | some last =>
    simp only [hl] at h
    split_ifs at h with hlt
    · simp at h
    · exact factor_loop_ok n prms hprime (bit_length_fuel 34 n + 2) n [] ixs [] h
        (by omega) rfl (one_mul n) (List.Pairwise.nil) (by simp) (by simp)

/-- C2 counterexample: the claim as stated is false.  The table `[2, 3, 5, 7]`
is strictly increasing, all entries are prime, and it contains every prime up
to `√100 = 10`; yet for `n = 97 ∈ [2, 100]` the early guard
`last · last < n` (`49 < 97`) makes `factor` return
`Err(NotEnoughPrimesToFactorIt)` instead of an index sequence. -/
theorem factor_covering_table_fails :
    List.Pairwise (· < ·) [2, 3, 5, 7]
      ∧ (∀ p ∈ [2, 3, 5, 7], Nat.Prime p)
      ∧ (∀ p < 11, Nat.Prime p → p ∈ [2, 3, 5, 7])
      ∧ 2 ≤ 97 ∧ 97 ≤ 100 ∧ 10 * 10 = 100
      ∧ primes.factor 97 [2, 3, 5, 7]
          = some (.error .NotEnoughPrimesToFactorIt) :=
  ⟨by decide, by decide, by decide, by decide, by decide, by decide, by decide⟩

/-- C2 witness: the amended theorem at `n = 30`, table `[2, 3, 5, 7]`, where
`factor` returns the indices `[0, 1, 2]` of `2 · 3 · 5 = 30`. -/
theorem factor_partial_correct_witness :
    ∃ fs, primes.indices_to_prime_factors [0, 1, 2] [2, 3, 5, 7] = some fs ∧
      fs.prod = 30 ∧ List.Pairwise (· ≤ ·) [0, 1, 2]
      ∧ ∀ a ∈ [0, 1, 2], a < [2, 3, 5, 7].length :=
  factor_partial_correct 30 [2, 3, 5, 7] [0, 1, 2]
    (by intro p hp; fin_cases hp <;> norm_num) (by decide) (by norm_num) (by decide)

/-- Success of `factor` implies the invariant-derived facts about the result.
Shared by the partial-correctness and encoder-safety claims. -/
theorem factor_ok_inv (n : Nat) (prms ixs : List Nat)
    (hprime : ∀ p ∈ prms, Nat.Prime p)
    (hn : 2 ≤ n)
    (h : primes.factor n prms = some (.ok ixs)) :
    ∃ fs, primes.indices_to_prime_factors ixs prms = some fs ∧ fs.prod = n ∧
      List.Pairwise (· ≤ ·) ixs ∧ ∀ a ∈ ixs, a < prms.length := by
  unfold primes.factor at h
  cases hl : prms.getLast? with
  | none =>
    rw [hl] at h
    exact absurd h (by simp)
  | some last =>
    simp only [hl] at h
    split_ifs at h with hlt
    · simp at h
    · exact factor_loop_ok n prms hprime (bit_length_fuel 34 n + 2) n [] ixs [] h
        (by omega) rfl (one_mul n) (List.Pairwise.nil) (by simp) (by simp)

/-- A prime power divides the product of a list at least up to the prime's
multiplicity. -/
theorem pow_count_dvd_prod (p : Nat) : ∀ l : List Nat, p ^ l.count p ∣ l.prod := by
  intro l
  induction l with
  | nil => simp
  | cons a t ih =>
    rw [List.prod_cons]
    simp only [List.count_cons, beq_iff_eq]
    split_ifs with hap
    · rw [hap, pow_succ']
      exact Nat.mul_dvd_mul (dvd_refl p) ih
    · rw [Nat.add_zero]
      exact ih.trans (dvd_mul_left _ _)

/-- Each index occurs in the index list at most as often as its table entry
occurs in the expansion. -/
theorem count_le_expansion : ∀ (ixs prms fs : List Nat),
    primes.indices_to_prime_factors ixs prms = some fs →
    ∀ x p, prms[x]? = some p → List.count x ixs ≤ List.count p fs := by
  intro ixs
  induction ixs with
  | nil =>
    intro prms fs h x p hp
    have hfs : fs = [] := by
      simpa [primes.indices_to_prime_factors] using h.symm
    subst hfs
    simp
  | cons i rest ih =>
    intro prms fs h x p hp
    cases hq : prms[i]? with
    | none => simp [primes.indices_to_prime_factors, hq] at h
    | some q =>
      cases hrec : primes.indices_to_prime_factors rest prms with
      | none => simp [primes.indices_to_prime_factors, hq, hrec] at h
      | some f =>
        have hfs : fs = q :: f := by
          simpa [primes.indices_to_prime_factors, hq, hrec] using h.symm
        subst hfs
        have hih := ih prms f hrec x p hp
        simp only [List.count_cons, beq_iff_eq]
        by_cases hix : i = x
        · have hqp : q = p := Option.some.inj ((hix ▸ hq).symm.trans hp)
          rw [if_pos hix, if_pos hqp]
          omega
        · rw [if_neg hix]
          split_ifs with hpq
          · omega
          · omega

/-- Any ten distinct primes multiply to at least the primorial
`2 · 3 · 5 · 7 · 11 · 13 · 17 · 19 · 23 · 29 = 6469693230`. -/
theorem ten_distinct_primes_prod (T : Finset Nat) (hp : ∀ p ∈ T, Nat.Prime p)
    (hc : T.card = 10) : 6469693230 ≤ T.prod (fun p => p) := by
  classical
  have hScard : ({2, 3, 5, 7, 11, 13, 17, 19, 23, 29} : Finset Nat).card = 10 := by decide
  have hSprod : ({2, 3, 5, 7, 11, 13, 17, 19, 23, 29} : Finset Nat).prod (fun p => p)
      = 6469693230 := by decide
  set S : Finset Nat := {2, 3, 5, 7, 11, 13, 17, 19, 23, 29} with hS
  have hsplitT := Finset.prod_inter_mul_prod_diff T S (fun p => p)
  have hsplitS := Finset.prod_inter_mul_prod_diff S T (fun p => p)
  have hcT := Finset.card_sdiff_add_card_inter T S
  have hcS := Finset.card_sdiff_add_card_inter S T
  have hIC : S ∩ T = T ∩ S := Finset.inter_comm S T
  have hcards : (S \ T).card = (T \ S).card := by
    rw [hIC] at hcS
    omega
  have h31 : ∀ p ∈ T \ S, 31 ≤ p := by
    intro p hpTS
    obtain ⟨hpT, hpnS⟩ := Finset.mem_sdiff.mp hpTS
    have hkey : ∀ q < 31, Nat.Prime q → q ∈ S := by decide
    by_contra hlt
    exact hpnS (hkey p (by omega) (hp p hpT))
  have h29 : ∀ p ∈ S \ T, p ≤ 29 := by
    intro p hpST
    have hpS : p ∈ S := (Finset.mem_sdiff.mp hpST).1
    have hkey : ∀ q ∈ S, q ≤ 29 := by decide
    exact hkey p hpS
  have hprod31 : 31 ^ (T \ S).card ≤ (T \ S).prod (fun p => p) := by
    have h1 : (T \ S).prod (fun _ => (31 : Nat)) ≤ (T \ S).prod (fun p => p) :=
      Finset.prod_le_prod' h31
    rwa [Finset.prod_const] at h1
  have hprodS29 : (S \ T).prod (fun p => p) ≤ 29 ^ (S \ T).card := by
    have h1 : (S \ T).prod (fun p => p) ≤ (S \ T).prod (fun _ => (29 : Nat)) :=
      Finset.prod_le_prod' h29
    rwa [Finset.prod_const] at h1
  have hpow : 29 ^ (S \ T).card ≤ 31 ^ (T \ S).card := by
    rw [hcards]
    exact Nat.pow_le_pow_left (by norm_num) _
  calc 6469693230 = S.prod (fun p => p) := hSprod.symm
    _ = (S ∩ T).prod (fun p => p) * (S \ T).prod (fun p => p) := hsplitS.symm
    _ = (T ∩ S).prod (fun p => p) * (S \ T).prod (fun p => p) := by rw [hIC]
    _ ≤ (T ∩ S).prod (fun p => p) * (31 ^ (T \ S).card) :=
        Nat.mul_le_mul_left _ (le_trans hprodS29 hpow)
    _ ≤ (T ∩ S).prod (fun p => p) * (T \ S).prod (fun p => p) :=
        Nat.mul_le_mul_left _ hprod31
    _ = T.prod (fun p => p) := hsplitT

/-- C10: on any index sequence produced by a successful `factor(n, table)`
call with `2 ≤ n < 2^32` on a strictly increasing table of primes (indexable
by `u32`), `encode_factors` hits no internal precondition: the sequence has
at most 9 distinct indices (ten distinct primes would multiply past `2^32`),
every run length (index multiplicity) is at most 32 (since `2^33 > n`), and
the encoder therefore succeeds — the small-value codec's `assert!(v < 32)`
and the `u8` exponent arithmetic are unreachable on factorization output. -/
theorem encode_factors_safe_on_factor_output (n : Nat) (prms ixs : List Nat)
    (hprime : ∀ p ∈ prms, Nat.Prime p)
    (hsorted : List.Pairwise (· < ·) prms)
    (hn : 2 ≤ n) (hnU : n < U32MOD)
    (hLen : prms.length ≤ U32MOD)
    (h : primes.factor n prms = some (.ok ixs)) :
    ixs.toFinset.card ≤ 9 ∧ (∀ x ∈ ixs, List.count x ixs ≤ 32) ∧
      ∃ bs, encode_prime.encode_factors ixs = some bs := by
  classical
  obtain ⟨fs, hfs, hprodn, hpw, hbound⟩ := factor_ok_inv n prms ixs hprime hn h
  have hU32 : U32MOD = 4294967296 := rfl
  -- each index's table entry lies in the expansion, hence divides n
  have hentry : ∀ x ∈ ixs, ∀ p, prms[x]? = some p →
      Nat.Prime p ∧ p ∣ n ∧ 1 ≤ List.count p fs := by
    intro x hx p hp
    have hple : 1 ≤ List.count x ixs := List.count_pos_iff_mem.mpr hx
    have hcnt := count_le_expansion ixs prms fs hfs x p hp
    have hc1 : 1 ≤ List.count p fs := le_trans hple hcnt
    have hpfs : p ∈ fs := List.count_pos_iff_mem.mp (by omega)
    have hpd : p ∣ n := hprodn ▸ List.dvd_prod hpfs
    obtain ⟨hlt, he⟩ := List.getElem?_eq_some.mp hp
    exact ⟨hprime p (he ▸ List.getElem_mem hlt), hpd, hc1⟩
  -- run lengths: multiplicity of a prime power of n is below 32
  have hcount : ∀ x ∈ ixs, List.count x ixs ≤ 32 := by
    intro x hx
    have hxl : x < prms.length := hbound x hx
    have hp : prms[x]? = some prms[x] := List.getElem?_eq_getElem hxl
    obtain ⟨hpp, _, _⟩ := hentry x hx _ hp
    have hcnt := count_le_expansion ixs prms fs hfs x _ hp
    have hdvd := pow_count_dvd_prod (prms[x]) fs
    rw [hprodn] at hdvd
    have hple : prms[x] ^ List.count (prms[x]) fs ≤ n :=
      Nat.le_of_dvd (by omega) hdvd
    have h2le : 2 ^ List.count (prms[x]) fs ≤ prms[x] ^ List.count (prms[x]) fs :=
      Nat.pow_le_pow_left hpp.two_le _
    by_contra hgt
    have h33 : 33 ≤ List.count (prms[x]) fs := by omega
    have hmono : 2 ^ 33 ≤ 2 ^ List.count (prms[x]) fs :=
      Nat.pow_le_pow_right (by norm_num) h33
    have : (2 : Nat) ^ 33 = 8589934592 := by norm_num
    omega
  -- distinct indices: their entries form a set of primes dividing n
  have hinj : Set.InjOn (fun x => prms.getD x 0) ixs.toFinset := by
    intro x hx y hy hxy
    have hx' : x ∈ ixs := List.mem_toFinset.mp hx
    have hy' : y ∈ ixs := List.mem_toFinset.mp hy
    have hxl : x < prms.length := hbound x hx'
    have hyl : y < prms.length := hbound y hy'
    simp only [List.getD_eq_getElem prms 0 hxl, List.getD_eq_getElem prms 0 hyl] at hxy
    by_contra hne
    rcases Nat.lt_or_ge x y with hlt | hge
    · have := (List.pairwise_iff_getElem.mp hsorted) x y hxl hyl hlt
      omega
    · have hylt : y < x := by omega
      have := (List.pairwise_iff_getElem.mp hsorted) y x hyl hxl hylt
      omega
  have hcard9 : ixs.toFinset.card ≤ 9 := by
    by_contra h9
    set P : Finset Nat := ixs.toFinset.image (fun x => prms.getD x 0) with hP
    have hcardP : P.card = ixs.toFinset.card := Finset.card_image_of_injOn hinj
    have hPfacts : ∀ q ∈ P, Nat.Prime q ∧ q ∣ n := by
      intro q hq
      obtain ⟨x, hx, hxq⟩ := Finset.mem_image.mp hq
      have hx' : x ∈ ixs := List.mem_toFinset.mp hx
      have hxl : x < prms.length := hbound x hx'
      have hgd : prms.getD x 0 = prms[x] := List.getD_eq_getElem prms 0 hxl
      obtain ⟨hpp, hpd, _⟩ := hentry x hx' prms[x] (List.getElem?_eq_getElem hxl)
      rw [← hxq, hgd]
      exact ⟨hpp, hpd⟩
    have hPdvd : P.prod (fun p => p) ∣ n :=
      Finset.prod_primes_dvd n (fun q hq => (hPfacts q hq).1.prime)
        (fun q hq => (hPfacts q hq).2)
    obtain ⟨T, hTP, hT10⟩ := Finset.exists_smaller_set P 10 (by omega)
    have hTprod : 6469693230 ≤ T.prod (fun p => p) :=
      ten_distinct_primes_prod T (fun p hp => (hPfacts p (hTP hp)).1) hT10
    have hTdvd : T.prod (fun p => p) ∣ P.prod (fun p => p) :=
      Dvd.intro_left _ (Finset.prod_sdiff hTP)
    have hle := Nat.le_of_dvd (by omega) (hTdvd.trans hPdvd)
    omega
  refine ⟨hcard9, hcount, ?_⟩
  cases hxs : ixs with
  | nil =>
    rw [hxs] at hfs
    have hfs0 : fs = [] := by
      simpa [primes.indices_to_prime_factors] using hfs.symm
    rw [hfs0] at hprodn
    simp at hprodn
    omega
  | cons p0 rest =>
    rw [hxs] at hpw hbound hcount hcard9
    have hUix : ∀ x ∈ p0 :: rest, x < U32MOD := fun x hx =>
      lt_of_lt_of_le (hbound x hx) hLen
    rcases full_runs_facts p0 rest hpw hUix hcount (by omega) with
      ⟨rs, hrs, hexp, hrsne, hlen32, _, _, _⟩
    exact ⟨_, encode_factors_eq p0 rest rs hrs hexp hrsne hlen32⟩

/-- C10 witness: the theorem at `factor(30, [2, 3, 5, 7]) = Ok([0, 1, 2])`. -/
theorem encode_factors_safe_on_factor_output_witness :
    [0, 1, 2].toFinset.card ≤ 9 ∧ (∀ x ∈ [0, 1, 2], List.count x [0, 1, 2] ≤ 32) ∧
      ∃ bs, encode_prime.encode_factors [0, 1, 2] = some bs :=
  encode_factors_safe_on_factor_output 30 [2, 3, 5, 7] [0, 1, 2]
    (by intro p hp; fin_cases hp <;> norm_num) (by decide) (by norm_num) (by decide)
    (by decide) (by decide)
